import Mathlib

/-
Verification of the Exscriptd order persistence engine
(`src/Exscriptd/OrderDB.py`) against its specification.

The module persists a three-level aggregate Order -> Host -> Variable in three
relational tables and reconstructs nested objects from a single flattened
outer-join result set.  This file gives a shallow embedding of that module:

* tables are lists of rows kept in insertion order (the scan order a relational
  engine presents for a SELECT without ORDER BY), with auto-increment counters;
* the stateful methods of class `OrderDB` become explicit state-passing
  functions over `St` (database state plus the reentrant-lock counters of the
  `synchronized` decorator); exceptions become `Except` values, with the state
  at raise time still returned, matching Python exception semantics;
* the row-grouping loops of `__get_orders_from_query` are translated
  loop-by-loop into recursive functions over the row list;
* the SQL queries built in `get_orders` are given their relational semantics
  directly (filter / subselect with offset+limit / outer join / sort).

Python `None`-ability is retained exactly where a claim depends on it: the
elements of the batch passed to `add_order`/`save_order` may be `None`
(`Option Order`); other `None` argument checks of the source are discharged by
the types of the embedding.
-/

namespace Exscriptd

/-- Variable values are opaque serializable payloads (column type `PickleType`);
no claim constrains them beyond equality, so they are modelled as strings. -/
abbrev Value := String

/-- A row of the `<prefix>order` table: `id PK, service, status, created,
closed (nullable), created_by`.  The engine-assigned `created` timestamp is
read by no claim and is omitted. -/
structure OrderRow where
  id : Nat
  service : String
  status : String
  closed : Option Nat
  created_by : String
  deriving DecidableEq

/-- A row of the `<prefix>host` table: `id PK, order_id FK, address, name`. -/
structure HostRow where
  id : Nat
  order_id : Nat
  address : String
  name : String
  deriving DecidableEq

/-- A row of the `<prefix>variable` table: `id PK, host_id FK, name, value`. -/
structure VarRow where
  id : Nat
  host_id : Nat
  name : String
  value : Value
  deriving DecidableEq

/-- The database: the three tables in insertion order, the auto-increment
counter of each primary key, and the engine clock (`now()`). -/
structure DB where
  orders : List OrderRow
  hosts : List HostRow
  vars : List VarRow
  nextOrderId : Nat
  nextHostId : Nat
  nextVarId : Nat
  now : Nat
  deriving DecidableEq

/-- Process state: the database plus the state of the process-wide reentrant
lock used by the `synchronized` decorator.  `lockDepth` is the current
reentrant acquisition depth, `lockAcqs` counts acquisitions cumulatively. -/
structure St where
  db : DB
  lockDepth : Nat
  lockAcqs : Nat
  deriving DecidableEq

/-- Modelled from the spec: the externally supplied `Host` domain object
(`Exscript.Host`, not under src/).  Section 6 of the spec gives its contract:
`get_name()`, `get_address()`, `get_all()` (mapping of variable name to
value, modelled as an association list), `is_dirty()`, `untouch()`,
`set(name, value)`. -/
structure Host where
  name : String
  address : String
  vars : List (String × Value)
  dirty : Bool
  deriving DecidableEq

/-- Modelled from the spec: `host.set(name, value)` updates the mapping entry
for `name` if present, else adds it. -/
def Host.set (h : Host) (k : String) (v : Value) : Host :=
  if h.vars.any (fun p => p.1 == k) then
    { h with vars := h.vars.map (fun p => if p.1 == k then (k, v) else p) }
  else
    { h with vars := h.vars ++ [(k, v)] }

/-- Modelled from the spec: the externally supplied `Order` domain object
(`Exscriptd.Order`, not under src/).  Spec contract: `get_service_name()`,
`get_status()`, `get_closed_timestamp()`, `get_created_by()`, `get_hosts()`,
`get_id()` with `id` assignable by the store, and `add_host`. -/
structure Order where
  id : Option Nat
  service : String
  status : String
  closed : Option Nat
  created_by : String
  hosts : List Host
  deriving DecidableEq

/-- Errors raised by `OrderDB`: `AttributeError` for absent required
arguments, and the `Exception('Too many results')` of `get_order`. -/
inductive DBErr where
  | attributeError (msg : String)
  | tooManyResults
  deriving DecidableEq

/-! ### Result-set rows

A row of the flattened outer-join result set consumed by
`__get_orders_from_query`.  The host columns are `none` on an outer-join miss
(order with no hosts); the variable columns are `none` when the host has no
variables.  `hasHostCols` models `row.has_key(tbl_h.c.order_id)`: it is false
for the rows of a non-recursive (orders-only) query. -/

structure HostCols where
  id : Nat
  order_id : Nat
  address : String
  name : String
  deriving DecidableEq

structure VarCols where
  host_id : Nat
  name : String
  value : Value
  deriving DecidableEq

structure Row where
  hasHostCols : Bool
  order_id : Nat
  service : String
  status : String
  closed : Option Nat
  created_by : String
  hostCols : Option HostCols
  varCols : Option VarCols
  deriving DecidableEq

/-- `__get_order_from_row`: construct an Order from the order columns. -/
def orderFromRow (r : Row) : Order :=
  { id := some r.order_id, service := r.service, status := r.status,
    closed := r.closed, created_by := r.created_by, hosts := [] }

/-- `__get_host_from_row`: `Host(row[name])` then `set_address(row[address])`.
A freshly constructed host has an empty variable mapping; its dirty flag is
examined by no claim (a loaded host is locally mutated through `set`, so it is
modelled dirty). -/
def hostFromCols (hc : HostCols) : Host :=
  { name := hc.name, address := hc.address, vars := [], dirty := true }

/-- Python truthiness of `row[tbl_h.c.id]`: `None` and `0` are both falsy. -/
def hostIdTruthy (r : Row) : Bool :=
  match r.hostCols with
  | none => false
  | some hc => hc.id != 0

/-- Apply collected `(name, value)` pairs to a host through `host.set`, in row
order — exactly what the innermost loop of `__get_orders_from_query` does. -/
def applyVars (h : Host) (kvs : List (String × Value)) : Host :=
  kvs.foldl (fun h' kv => h'.set kv.1 kv.2) h

/-- The tail of the innermost loop of `__get_orders_from_query` (lines
415-421): the state just after `host.set(...)` and `row = result.fetchone()`.
The loop breaks when the cursor is exhausted or `last_host_id != row[h.id]`,
and its guard re-checks `row and row[v.host_id]`.  Returns the `(name, value)`
pairs still collected for the current host, and the unconsumed rows. -/
def groupVarsNext (lastHostId : Nat) : List Row → List (String × Value) × List Row
  | [] => ([], [])
  | r :: rest =>
    match r.hostCols with
    | none => ([], r :: rest)
    | some hc =>
      if hc.id == lastHostId then
        match r.varCols with
        | none => ([], r :: rest)
        | some vc =>
          if vc.host_id == 0 then ([], r :: rest)
          else
            let p := groupVarsNext lastHostId rest
            ((vc.name, vc.value) :: p.1, p.2)
      else ([], r :: rest)

theorem groupVarsNext_len (i : Nat) (rows : List Row) :
    (groupVarsNext i rows).2.length ≤ rows.length := by
  induction rows with
  | nil => simp [groupVarsNext]
  | cons r rest ih =>
    simp only [groupVarsNext]
    cases hhc : r.hostCols with
    | none => simp
    | some hc =>
      by_cases h1 : hc.id == i
      · simp only [h1, if_true]
        cases hvc : r.varCols with
        | none => simp
        | some vc =>
          by_cases h2 : vc.host_id == 0
          · simp [h2]
          · simp only [h2, if_false]
            exact Nat.le_succ_of_le ih
      · simp [h1]

/-- The middle loop of `__get_orders_from_query` (lines 402-421), entered at
its guard `row and row[h.id]`: build the hosts of the current order until the
cursor is exhausted, the host id column goes null/0, or the order id changes.
Returns the hosts built and the unconsumed rows. -/
def groupHosts (lastOrderId : Nat) (rows : List Row) : List Host × List Row :=
  match rows with
  | [] => ([], [])
  | r :: rest =>
    match r.hostCols with
    | none => ([], r :: rest)
    | some hc =>
      if hc.id == 0 then ([], r :: rest)
      else if r.order_id != lastOrderId then ([], r :: rest)
      else
        match r.varCols with
        | none =>
          let q := groupHosts lastOrderId rest
          (hostFromCols hc :: q.1, q.2)
        | some vc =>
          if vc.host_id == 0 then
            let q := groupHosts lastOrderId rest
            (hostFromCols hc :: q.1, q.2)
          else
            let p := groupVarsNext hc.id rest
            let q := groupHosts lastOrderId p.2
            (applyVars (hostFromCols hc) ((vc.name, vc.value) :: p.1) :: q.1, q.2)
  termination_by rows.length
  decreasing_by
  all_goals
    simp only [List.length_cons]
    first
    | omega
    | exact Nat.lt_succ_of_le (groupVarsNext_len hc.id rest)

theorem groupHosts_len (oid : Nat) (rows : List Row) :
    (groupHosts oid rows).2.length ≤ rows.length := by
  induction rows using groupHosts.induct oid with
  | case1 => simp [groupHosts]
  | case2 r rest hhc => simp [groupHosts, hhc]
  | case3 r rest hc hhc h0 => simp [groupHosts, hhc, h0]
  | case4 r rest hc hhc h0 hne => simp [groupHosts, hhc, h0, hne]
  | case5 r rest hc hhc h0 hne hvc ih =>
    simp only [Bool.not_eq_true] at h0 hne
    simp only [groupHosts, hhc, h0, hne, hvc, List.length_cons, Bool.false_eq_true, if_false]
    omega
  | case6 r rest hc hhc h0 hne vc hvc hv0 ih =>
    simp only [Bool.not_eq_true] at h0 hne
    simp only [groupHosts, hhc, h0, hne, hvc, hv0, List.length_cons, Bool.false_eq_true,
      if_false, if_true]
    omega
  | case7 r rest hc hhc h0 hne vc hvc hv0 p ih =>
    simp only [Bool.not_eq_true] at h0 hne hv0
    simp only [groupHosts, hhc, h0, hne, hvc, hv0, List.length_cons, Bool.false_eq_true, if_false]
    have h2 := groupVarsNext_len hc.id rest
    simp only [p] at ih
    omega

theorem groupHosts_cons_len (oid : Nat) (r : Row) (rest : List Row) (hc : HostCols)
    (h1 : r.hostCols = some hc) (h2 : (hc.id == 0) = false) (h3 : (r.order_id != oid) = false) :
    (groupHosts oid (r :: rest)).2.length ≤ rest.length := by
  unfold groupHosts
  simp only [h1, h2, h3, Bool.false_eq_true, if_false]
  cases hvc : r.varCols with
  | none => exact groupHosts_len oid rest
  | some vc =>
    simp only []
    by_cases hv0 : vc.host_id == 0
    · simp only [hv0, if_true]
      exact groupHosts_len oid rest
    · simp only [hv0, Bool.false_eq_true, if_false]
      calc (groupHosts oid (groupVarsNext hc.id rest).2).2.length
          ≤ (groupVarsNext hc.id rest).2.length := groupHosts_len _ _
        _ ≤ rest.length := groupVarsNext_len _ _


/-- The outer loop of `__get_orders_from_query` (lines 389-426): one forward
pass over the flattened result set, creating an `Order` at each row whose
order id is truthy, attaching hosts while the host id column is truthy and the
order id is unchanged, and stopping when the cursor is exhausted or the order
id column is falsy. -/
def groupOrders (rows : List Row) : List Order :=
  match rows with
  | [] => []
  | r :: rest =>
    if r.order_id == 0 then []
    else
      let o := orderFromRow r
      if h : (!r.hasHostCols || !hostIdTruthy r) = true then
        o :: groupOrders rest
      else
        let q := groupHosts r.order_id (r :: rest)
        { o with hosts := q.1 } :: groupOrders q.2
  termination_by rows.length
  decreasing_by
  · simp [Nat.lt_succ_iff]
  · have ht : hostIdTruthy r = true := by
      revert h
      cases r.hasHostCols <;> cases hidt : hostIdTruthy r <;> simp
    have hhc : ∃ hc, r.hostCols = some hc ∧ (hc.id == 0) = false := by
      unfold hostIdTruthy at ht
      cases hrc : r.hostCols with
      | none => rw [hrc] at ht; exact absurd ht (by simp)
      | some hc =>
        rw [hrc] at ht
        exact ⟨hc, rfl, by simpa using ht⟩
    obtain ⟨hc, hhc1, hhc2⟩ := hhc
    have := groupHosts_cons_len r.order_id r rest hc hhc1 hhc2 (by simp)
    simp only [List.length_cons]
    omega

/-! ### Query construction (`get_orders`, lines 456-508) -/

/-- The keyword criteria of `get_orders`/`get_order`.  A `none` field was not
passed; a passed value is normalized through `Exscript.util.cast.to_list`
(scalar to singleton list, `None` to `[]`). -/
structure Criteria where
  id : Option (List Nat)
  service : Option (List String)
  status : Option (List String)
  deriving DecidableEq

/-- One filter field of `get_orders`: `cond = sa.or_(cond, col == value)`
folded over the value list starting from `cond = None`, then
`where = sa.and_(where, cond)`.  SQLAlchemy's `or_`/`and_` build a
`ClauseList` that drops `None` operands, and an all-dropped (empty) clause
list compiles to no WHERE text at all, so a field passed an empty list
imposes no constraint — just like an absent field. -/
def fieldMatch {α : Type} [BEq α] (crit : Option (List α)) (v : α) : Bool :=
  match crit with
  | none => true
  | some vs => vs.isEmpty || vs.contains v

/-- The WHERE clause of `get_orders`: the `id`, `service` and `status`
conditions combined with `sa.and_`. -/
def matchRow (c : Criteria) (r : OrderRow) : Bool :=
  fieldMatch c.id r.id && fieldMatch c.service r.service && fieldMatch c.status r.status

/-- `ORDER BY <prefix>order.id DESC` on the order rows: insertion sort by
descending id (the sort key is unique under the schema's primary key). -/
def insertDescById (o : OrderRow) : List OrderRow → List OrderRow
  | [] => [o]
  | x :: xs => if x.id ≤ o.id then o :: x :: xs else x :: insertDescById o xs

def sortDescById : List OrderRow → List OrderRow
  | [] => []
  | x :: xs => insertDescById x (sortDescById xs)

/-- `LIMIT`: a limit of 0 — the `get_orders` default — produces no LIMIT
clause; a positive limit truncates.  `OFFSET` is `List.drop` at call sites. -/
def applyLimit {α : Type} (limit : Nat) (xs : List α) : List α :=
  if limit == 0 then xs else xs.take limit

/-- The host rows joined to one order: `tbl_o.c.id == tbl_h.c.order_id`. -/
def hostRowsFor (db : DB) (oid : Nat) : List HostRow :=
  db.hosts.filter (fun h => h.order_id == oid)

/-- The variable rows joined to one host: `tbl_h.c.id == tbl_v.c.host_id`. -/
def varRowsFor (db : DB) (hid : Nat) : List VarRow :=
  db.vars.filter (fun v => v.host_id == hid)

def hcOf (h : HostRow) : HostCols :=
  { id := h.id, order_id := h.order_id, address := h.address, name := h.name }

/-- The order columns of a result row; host/variable columns null. -/
def baseRow (o : OrderRow) : Row :=
  { hasHostCols := true, order_id := o.id, service := o.service, status := o.status,
    closed := o.closed, created_by := o.created_by, hostCols := none, varCols := none }

/-- The outer-join rows contributed by one host of an order: one row with null
variable columns if the host has no variables, else one row per variable. -/
def hostOnlyRow (o : OrderRow) (hc : HostCols) : Row :=
  { baseRow o with hostCols := some hc }

def varJoinRow (o : OrderRow) (hc : HostCols) (v : VarRow) : Row :=
  { baseRow o with hostCols := some hc, varCols := some ⟨v.host_id, v.name, v.value⟩ }

def rowsForHost (o : OrderRow) (db : DB) (h : HostRow) : List Row :=
  match varRowsFor db h.id with
  | [] => [hostOnlyRow o (hcOf h)]
  | v :: vt => (v :: vt).map (varJoinRow o (hcOf h))

/-- The outer-join rows contributed by one order: one row with null host
columns if the order has no hosts, else the concatenated host blocks (the
engine returns the rows of one order, and of one host within it, adjacently:
the result is sorted only by order id and produced by nested-loop join in
table order, which every claim's spec sentence also assumes as "stable
sub-ordering"). -/
def rowsForOrder (db : DB) (o : OrderRow) : List Row :=
  match hostRowsFor db o.id with
  | [] => [baseRow o]
  | h :: ht => (h :: ht).flatMap (rowsForHost o db)

/-- The full result set of the recursive `get_orders` query for a chosen,
descending-sorted list of order rows. -/
def joinRows (db : DB) (L : List OrderRow) : List Row :=
  L.flatMap (rowsForOrder db)

/-- `get_orders` (lines 456-508).  In the recursive branch, the WHERE
criteria, offset and limit are applied to a subselect of order ids only —
with no ORDER BY, so in table scan order — and the outer query joins
order ⟕ host ⟕ variable against those ids, ordered by order id descending.
In the non-recursive branch a single sorted, paginated select of order rows
is issued.  Either way the rows are materialized by
`__get_orders_from_query` (`groupOrders`). -/
def get_orders (offset limit : Nat) (recursive : Bool) (c : Criteria) (db : DB) :
    List Order :=
  if recursive then
    let sel := applyLimit limit (((db.orders.filter (matchRow c)).map (fun o => o.id)).drop offset)
    let chosen := sortDescById (db.orders.filter (fun o => sel.contains o.id))
    groupOrders (joinRows db chosen)
  else
    let rows := applyLimit limit ((sortDescById (db.orders.filter (matchRow c))).drop offset)
    groupOrders (rows.map (fun o => { baseRow o with hasHostCols := false }))

/-- `get_order` (lines 437-454): `get_orders(0, 2, **kwargs)`, then `None`
for zero rows, the order for one, `Exception('Too many results')` for more. -/
def get_order (c : Criteria) (db : DB) : Except DBErr (Option Order) :=
  let result := get_orders 0 2 true c db
  if result.length == 0 then Except.ok none
  else if result.length > 1 then Except.error DBErr.tooManyResults
  else Except.ok result.head?

/-- `count_orders`: total row count of the order table. -/
def count_orders (db : DB) : Nat := db.orders.length

/-! ### Mutating operations -/

/-- The `synchronized` decorator (lines 22-41): acquire the process-wide
reentrant lock, run the method, release on every exit path (`with rlock`).
The reentrant lock is modelled by a depth counter that an acquisition
increments (never blocking the same thread) and a cumulative acquisition
counter. -/
def synchronized {α : Type} (f : St → α × St) : St → α × St := fun st =>
  let st1 := { st with lockDepth := st.lockDepth + 1, lockAcqs := st.lockAcqs + 1 }
  let p := f st1
  (p.1, { p.2 with lockDepth := p.2.lockDepth - 1 })

/-- `__add_variable` (lines 173-187): insert a variable row, return the new
id.  The `host_id`/`key` `None`-checks are discharged by the types. -/
def add_variable_impl (host_id : Nat) (key : String) (value : Value) :
    St → Nat × St :=
  synchronized fun st =>
    (st.db.nextVarId,
     { st with db := { st.db with
         vars := st.db.vars ++ [⟨st.db.nextVarId, host_id, key, value⟩],
         nextVarId := st.db.nextVarId + 1 } })

/-- `__save_variable` (lines 189-214): look the variable up by the
`(host_id, name)` natural key; insert if absent, else update every matching
row in place. -/
def save_variable_impl (host_id : Nat) (key : String) (value : Value) :
    St → Unit × St :=
  synchronized fun st =>
    match st.db.vars.find? (fun v => v.host_id == host_id && v.name == key) with
    | none =>
      ((), { st with db := { st.db with
          vars := st.db.vars ++ [⟨st.db.nextVarId, host_id, key, value⟩],
          nextVarId := st.db.nextVarId + 1 } })
    | some _ =>
      ((), { st with db := { st.db with
          vars := st.db.vars.map (fun v =>
            if v.host_id == host_id && v.name == key then { v with value := value } else v) } })

/-- `__add_host` (lines 221-246): no-op unless the host is dirty; insert the
host row, insert each of its variables, then `host.untouch()`.  Returns the
(possibly untouched) in-memory host, and the new host id when written. -/
def add_host_impl (order_id : Nat) (host : Host) :
    St → (Host × Option Nat) × St :=
  synchronized fun st =>
    if !host.dirty then ((host, none), st)
    else
      let hid := st.db.nextHostId
      let st1 := { st with db := { st.db with
          hosts := st.db.hosts ++ [⟨hid, order_id, host.address, host.name⟩],
          nextHostId := hid + 1 } }
      let st2 := host.vars.foldl (fun acc kv => (add_variable_impl hid kv.1 kv.2 acc).2) st1
      (({ host with dirty := false }, some hid), st2)

/-- `__save_host` (lines 248-288): no-op unless dirty; look the host up by
the `(order_id, address)` natural key; insert if absent, else update every
matching row; upsert each attached variable; then `host.untouch()`.
(Deleting obsolete variables is an explicit `FIXME` in the source.) -/
def save_host_impl (order_id : Nat) (host : Host) :
    St → (Host × Option Nat) × St :=
  synchronized fun st =>
    if !host.dirty then ((host, none), st)
    else
      match st.db.hosts.find? (fun h => h.order_id == order_id && h.address == host.address) with
      | none =>
        let hid := st.db.nextHostId
        let st1 := { st with db := { st.db with
            hosts := st.db.hosts ++ [⟨hid, order_id, host.address, host.name⟩],
            nextHostId := hid + 1 } }
        let st2 := host.vars.foldl (fun acc kv => (save_variable_impl hid kv.1 kv.2 acc).2) st1
        (({ host with dirty := false }, some hid), st2)
      | some hrow =>
        let st1 := { st with db := { st.db with
            hosts := st.db.hosts.map (fun h =>
              if h.order_id == order_id && h.address == host.address then
                { h with name := host.name }
              else h) } }
        let st2 := host.vars.foldl (fun acc kv => (save_variable_impl hrow.id kv.1 kv.2 acc).2) st1
        (({ host with dirty := false }, some hrow.id), st2)

/-- The body of the host loop of `__add_order` (lines 317-318): accumulate
the mutated hosts, thread the state. -/
def addHostStep (oid : Nat) (a : List Host × St) (h : Host) : List Host × St :=
  let p := add_host_impl oid h a.2
  (a.1 ++ [p.1.1], p.2)

/-- `__add_order` (lines 297-319): raise `AttributeError` on a `None` order;
insert the order row (the store assigns `order.id`); when recursive, insert
each host.  Returns the mutated in-memory order. -/
def add_order_impl (o : Option Order) (recursive : Bool) :
    St → Except DBErr Order × St :=
  synchronized fun st =>
    match o with
    | none => (Except.error (DBErr.attributeError "order argument must not be None"), st)
    | some order =>
      let oid := st.db.nextOrderId
      let st1 := { st with db := { st.db with
          orders := st.db.orders ++
            [⟨oid, order.service, order.status, order.closed, order.created_by⟩],
          nextOrderId := oid + 1 } }
      let order1 := { order with id := some oid }
      if !recursive then (Except.ok order1, st1)
      else
        let q := order.hosts.foldl (addHostStep oid) ([], st1)
        (Except.ok { order1 with hosts := q.1 }, q.2)

/-- The loop body of `add_order` (line 522-523): `__add_order` on each batch
element in turn, stopping at the first exception.  Returns the outcome, the
in-memory batch after the heap mutations performed so far (Python mutates the
caller's objects in place), and the state. -/
def add_order_loop (recursive : Bool) :
    List (Option Order) → St → (Except DBErr Unit × List (Option Order)) × St
  | [], st => ((Except.ok (), []), st)
  | o :: rest, st =>
    match add_order_impl o recursive st with
    | (Except.ok o', st') =>
      let q := add_order_loop recursive rest st'
      ((q.1.1, some o' :: q.1.2), q.2)
    | (Except.error e, st') => ((Except.error e, o :: rest), st')

/-- `add_order` (lines 510-527).  One transaction per call: begin, insert
every order of the batch, commit; on any exception roll the storage back and
re-raise.  Modelled from the spec for the part outside src/: the relational
engine's transaction object restores, on `rollback()`, exactly the rows as
they stood at `begin()` (spec section 5: "all work performed so far in that
call is rolled back").  Heap mutations of the in-memory orders are not part
of the transaction and survive. -/
def add_order (orders : List (Option Order)) (recursive : Bool) (st : St) :
    (Except DBErr Unit × List (Option Order)) × St :=
  let saved := st.db
  match add_order_loop recursive orders st with
  | ((Except.ok _, os), st') => ((Except.ok (), os), st')
  | ((Except.error e, os), st') => ((Except.error e, os), { st' with db := saved })

/-- The body of the host loop of `__save_order` (lines 359-360). -/
def saveHostStep (oid : Nat) (a : List Host × St) (h : Host) : List Host × St :=
  let p := save_host_impl oid h a.2
  (a.1 ++ [p.1.1], p.2)

/-- `__save_order` (lines 321-360): raise on `None`; if `order.id` is truthy,
look the order up with `get_order(id=order.get_id())`; if not found (or id
falsy) fall back to the public `add_order` (inlined here for the singleton
batch it receives, transaction wrapper included); if found, update the
mutable fields `service`, `status`, `closed`, `created_by`, and when
recursive upsert each host.  (Deleting obsolete hosts is an explicit `FIXME`
in the source.)  Returns the mutated in-memory order. -/
def save_order_impl (o : Option Order) (recursive : Bool) :
    St → Except DBErr Order × St :=
  synchronized fun st =>
    match o with
    | none => (Except.error (DBErr.attributeError "order argument must not be None"), st)
    | some order =>
      let lookup : Except DBErr (Option Order) :=
        match order.id with
        | none => Except.ok none
        | some i =>
          if i == 0 then Except.ok none
          else get_order { id := some [i], service := none, status := none } st.db
      match lookup with
      | Except.error e => (Except.error e, st)
      | Except.ok none =>
        let saved := st.db
        match add_order_impl (some order) recursive st with
        | (Except.ok o', st') => (Except.ok o', st')
        | (Except.error e, st') => (Except.error e, { st' with db := saved })
      | Except.ok (some _) =>
        let oid := order.id.getD 0
        let st1 := { st with db := { st.db with
            orders := st.db.orders.map (fun r =>
              if r.id == oid then
                { r with service := order.service, status := order.status,
                         closed := order.closed, created_by := order.created_by }
              else r) } }
        if !recursive then (Except.ok order, st1)
        else
          let q := order.hosts.foldl (saveHostStep oid) ([], st1)
          (Except.ok { order with hosts := q.1 }, q.2)

/-- The loop body of `save_order` (lines 551-552). -/
def save_order_loop (recursive : Bool) :
    List (Option Order) → St → (Except DBErr Unit × List (Option Order)) × St
  | [], st => ((Except.ok (), []), st)
  | o :: rest, st =>
    match save_order_impl o recursive st with
    | (Except.ok o', st') =>
      let q := save_order_loop recursive rest st'
      ((q.1.1, some o' :: q.1.2), q.2)
    | (Except.error e, st') => ((Except.error e, o :: rest), st')

/-- `save_order` (lines 538-556): one transaction per call, with the same
begin/commit/rollback discipline as `add_order`. -/
def save_order (orders : List (Option Order)) (recursive : Bool) (st : St) :
    (Except DBErr Unit × List (Option Order)) × St :=
  let saved := st.db
  match save_order_loop recursive orders st with
  | ((Except.ok _, os), st') => ((Except.ok (), os), st')
  | ((Except.error e, os), st') => ((Except.error e, os), { st' with db := saved })

/-- `close_open_orders` (lines 529-536): set `closed = now()` on every order
whose `closed` is NULL, leaving `status` untouched.  Note: this method is NOT
decorated with `synchronized` in the source. -/
def close_open_orders (st : St) : St :=
  { st with db := { st.db with orders := st.db.orders.map (fun r =>
      if r.closed.isNone then { r with closed := some st.db.now } else r) } }

/-- `install` (lines 107-116): `metadata.create_all()`; idempotent table
creation touches no rows of an existing schema. -/
def install : St → Bool × St :=
  synchronized fun st => (true, st)

/-- `uninstall` (lines 118-127): `metadata.drop_all()` discards all tables —
all rows and the id counters. -/
def uninstall : St → Bool × St :=
  synchronized fun st =>
    (true, { st with db := { st.db with
                orders := [], hosts := [], vars := [],
                nextOrderId := 1, nextHostId := 1, nextVarId := 1 } })

/-- `clear_database` (lines 129-142): delete every row of the order table;
the `ON DELETE CASCADE` foreign keys remove the host and variable rows. -/
def clear_database : St → Bool × St :=
  synchronized fun st =>
    (true, { st with db := { st.db with orders := [], hosts := [], vars := [] } })

/-! ### Schema well-formedness -/

/-- A list of strictly increasing naturals. -/
def sortedLtB : List Nat → Bool
  | [] => true
  | [_] => true
  | a :: b :: t => decide (a < b) && sortedLtB (b :: t)

def pairwiseB {α : Type} (p : α → α → Bool) : List α → Bool
  | [] => true
  | a :: t => t.all (p a) && pairwiseB p t

/-- Schema well-formedness of a database state: each table's primary keys are
the strictly increasing, positive values an auto-increment engine assigns,
below the table's counter; foreign keys point below the referenced counter;
and the natural keys of the data model hold (no two hosts of one order share
an address, no two variables of one host share a name — spec section 3). -/
def DB.wfb (db : DB) : Bool :=
  decide (0 < db.nextOrderId) && decide (0 < db.nextHostId) && decide (0 < db.nextVarId) &&
  sortedLtB (db.orders.map (fun o => o.id)) &&
  db.orders.all (fun o => decide (0 < o.id) && decide (o.id < db.nextOrderId)) &&
  sortedLtB (db.hosts.map (fun h => h.id)) &&
  db.hosts.all (fun h => decide (0 < h.id) && decide (h.id < db.nextHostId) &&
    decide (0 < h.order_id) && decide (h.order_id < db.nextOrderId)) &&
  sortedLtB (db.vars.map (fun v => v.id)) &&
  db.vars.all (fun v => decide (0 < v.id) && decide (v.id < db.nextVarId) &&
    decide (0 < v.host_id) && decide (v.host_id < db.nextHostId)) &&
  pairwiseB (fun (a b : HostRow) => a.order_id != b.order_id || a.address != b.address) db.hosts &&
  pairwiseB (fun (a b : VarRow) => a.host_id != b.host_id || a.name != b.name) db.vars

/-! ### Reference materialization

The nested object an order row should reconstruct to, read off the tables
directly: used as the right-hand side of the grouping correctness results. -/

/-- The host a stored host row materializes to: its variables read straight
from the variable table. -/
def hostOf (db : DB) (h : HostRow) : Host :=
  { name := h.name, address := h.address,
    vars := (varRowsFor db h.id).map (fun v => (v.name, v.value)), dirty := true }

/-- The order a stored order row materializes to: its hosts read straight
from the host table. -/
def orderOf (db : DB) (o : OrderRow) : Order :=
  { id := some o.id, service := o.service, status := o.status, closed := o.closed,
    created_by := o.created_by, hosts := (hostRowsFor db o.id).map (hostOf db) }

/-! ### Consequences of well-formedness -/

theorem sortedLtB_chain (l : List Nat) (h : sortedLtB l = true) : l.Chain' (· < ·) := by
  induction l with
  | nil => simp
  | cons a t ih =>
    cases t with
    | nil => simp
    | cons b t' =>
      simp only [sortedLtB, Bool.and_eq_true, decide_eq_true_eq] at h
      exact List.Chain'.cons h.1 (ih h.2)

theorem sortedLtB_pairwise (l : List Nat) (h : sortedLtB l = true) :
    l.Pairwise (· < ·) :=
  List.chain'_iff_pairwise.mp (sortedLtB_chain l h)

theorem pairwiseB_pairwise {α : Type} (p : α → α → Bool) (l : List α)
    (h : pairwiseB p l = true) : l.Pairwise (fun a b => p a b = true) := by
  induction l with
  | nil => exact List.Pairwise.nil
  | cons a t ih =>
    simp only [pairwiseB, Bool.and_eq_true, List.all_eq_true] at h
    exact List.Pairwise.cons (fun b hb => h.1 b hb) (ih h.2)

/-- The facts packaged by `DB.wfb`, in propositional form. -/
structure DBFacts (db : DB) : Prop where
  nextOrderPos : 0 < db.nextOrderId
  nextHostPos : 0 < db.nextHostId
  nextVarPos : 0 < db.nextVarId
  ordersSorted : db.orders.Pairwise (fun a b => a.id < b.id)
  ordersPos : ∀ o ∈ db.orders, 0 < o.id
  ordersLt : ∀ o ∈ db.orders, o.id < db.nextOrderId
  hostsSorted : db.hosts.Pairwise (fun a b => a.id < b.id)
  hostsPos : ∀ h ∈ db.hosts, 0 < h.id
  hostsLt : ∀ h ∈ db.hosts, h.id < db.nextHostId
  hostsOrderPos : ∀ h ∈ db.hosts, 0 < h.order_id
  hostsOrderLt : ∀ h ∈ db.hosts, h.order_id < db.nextOrderId
  varsSorted : db.vars.Pairwise (fun a b => a.id < b.id)
  varsPos : ∀ v ∈ db.vars, 0 < v.id
  varsLt : ∀ v ∈ db.vars, v.id < db.nextVarId
  varsHostPos : ∀ v ∈ db.vars, 0 < v.host_id
  varsHostLt : ∀ v ∈ db.vars, v.host_id < db.nextHostId
  hostKeys : db.hosts.Pairwise (fun a b => a.order_id ≠ b.order_id ∨ a.address ≠ b.address)
  varKeys : db.vars.Pairwise (fun a b => a.host_id ≠ b.host_id ∨ a.name ≠ b.name)

theorem DB.wfb_facts (db : DB) (h : db.wfb = true) : DBFacts db := by
  unfold DB.wfb at h
  simp only [Bool.and_eq_true, List.all_eq_true, decide_eq_true_eq] at h
  obtain ⟨⟨⟨⟨⟨⟨⟨⟨⟨⟨hn1, hn2⟩, hn3⟩, h1⟩, h2⟩, h3⟩, h4⟩, h5⟩, h6⟩, h7⟩, h8⟩ := h
  refine ⟨hn1, hn2, hn3, ?_, ?_, ?_, ?_, ?_, ?_, ?_, ?_, ?_, ?_, ?_, ?_, ?_, ?_, ?_⟩
  · exact (List.pairwise_map).mp (sortedLtB_pairwise _ h1)
  · exact fun o ho => (h2 o ho).1
  · exact fun o ho => (h2 o ho).2
  · exact (List.pairwise_map).mp (sortedLtB_pairwise _ h3)
  · exact fun x hx => (h4 x hx).1.1.1
  · exact fun x hx => (h4 x hx).1.1.2
  · exact fun x hx => (h4 x hx).1.2
  · exact fun x hx => (h4 x hx).2
  · exact (List.pairwise_map).mp (sortedLtB_pairwise _ h5)
  · exact fun x hx => (h6 x hx).1.1.1
  · exact fun x hx => (h6 x hx).1.1.2
  · exact fun x hx => (h6 x hx).1.2
  · exact fun x hx => (h6 x hx).2
  · refine ((pairwiseB_pairwise _ _ h7).imp ?_)
    intro a b hab
    simpa using hab
  · refine ((pairwiseB_pairwise _ _ h8).imp ?_)
    intro a b hab
    simpa using hab

theorem DBFacts.ordersIdNodup {db : DB} (f : DBFacts db) :
    (db.orders.map (fun o => o.id)).Nodup :=
  (List.pairwise_map).mpr (f.ordersSorted.imp (fun h => Nat.ne_of_lt h))

theorem DBFacts.hostsIdNodup {db : DB} (f : DBFacts db) :
    (db.hosts.map (fun h => h.id)).Nodup :=
  (List.pairwise_map).mpr (f.hostsSorted.imp (fun h => Nat.ne_of_lt h))

theorem DBFacts.varsIdNodup {db : DB} (f : DBFacts db) :
    (db.vars.map (fun v => v.id)).Nodup :=
  (List.pairwise_map).mpr (f.varsSorted.imp (fun h => Nat.ne_of_lt h))

/-- Distinct host rows of a well-formed database have distinct ids. -/
theorem DBFacts.host_id_inj {db : DB} (f : DBFacts db) {a b : HostRow}
    (ha : a ∈ db.hosts) (hb : b ∈ db.hosts) (hid : a.id = b.id) : a = b :=
  List.inj_on_of_nodup_map f.hostsIdNodup ha hb hid

theorem mem_varRowsFor {db : DB} {hid : Nat} {v : VarRow} (hv : v ∈ varRowsFor db hid) :
    v ∈ db.vars ∧ v.host_id = hid := by
  unfold varRowsFor at hv
  refine ⟨List.mem_of_mem_filter hv, ?_⟩
  have := List.of_mem_filter hv
  simpa using this

theorem mem_hostRowsFor {db : DB} {oid : Nat} {h : HostRow} (hh : h ∈ hostRowsFor db oid) :
    h ∈ db.hosts ∧ h.order_id = oid := by
  unfold hostRowsFor at hh
  refine ⟨List.mem_of_mem_filter hh, ?_⟩
  have := List.of_mem_filter hh
  simpa using this

/-- The names of the variables of any one host are distinct in a well-formed
database. -/
theorem DBFacts.varNamesNodup {db : DB} (f : DBFacts db) (hid : Nat) :
    ((varRowsFor db hid).map (fun v => v.name)).Nodup := by
  refine (List.pairwise_map).mpr ?_
  have hp : (varRowsFor db hid).Pairwise
      (fun a b => a.host_id ≠ b.host_id ∨ a.name ≠ b.name) :=
    (f.varKeys.sublist (List.filter_sublist _))
  refine hp.imp_of_mem (fun {a b} ha hb hab => ?_)
  rcases hab with hne | hne
  · exact absurd ((mem_varRowsFor ha).2.trans (mem_varRowsFor hb).2.symm) hne
  · exact hne

/-- The subset of the schema facts that the query/materialization path needs:
natural-key uniqueness is not among them, so these facts survive inserts of
arbitrary (even duplicate-address) hosts. -/
structure QueryFacts (db : DB) : Prop where
  ordersSorted : db.orders.Pairwise (fun a b => a.id < b.id)
  ordersPos : ∀ o ∈ db.orders, 0 < o.id
  hostsIdNodup : (db.hosts.map (fun h => h.id)).Nodup
  hostsPos : ∀ h ∈ db.hosts, 0 < h.id
  varNames : ∀ hid, ((varRowsFor db hid).map (fun v => v.name)).Nodup

theorem QueryFacts.idsNodup {db : DB} (f : QueryFacts db) :
    (db.orders.map (fun o => o.id)).Nodup :=
  (List.pairwise_map).mpr (f.ordersSorted.imp (fun h => Nat.ne_of_lt h))

theorem DBFacts.toQuery {db : DB} (f : DBFacts db) : QueryFacts db :=
  ⟨f.ordersSorted, f.ordersPos, f.hostsIdNodup, f.hostsPos, f.varNamesNodup⟩

/-! ### Correctness of the row-grouping materialization -/

/-- Applying distinct fresh names through `Host.set` just appends them. -/
theorem applyVars_nodup (h : Host) (kvs : List (String × Value))
    (hnd : (kvs.map (fun p => p.1)).Nodup)
    (hdisj : ∀ p ∈ kvs, ∀ q ∈ h.vars, q.1 ≠ p.1) :
    applyVars h kvs = { h with vars := h.vars ++ kvs } := by
  induction kvs generalizing h with
  | nil => simp [applyVars]
  | cons kv t ih =>
    rw [List.map_cons] at hnd
    have hcons := List.nodup_cons.mp hnd
    have hset : h.set kv.1 kv.2 = { h with vars := h.vars ++ [(kv.1, kv.2)] } := by
      unfold Host.set
      have : h.vars.any (fun p => p.1 == kv.1) = false := by
        simp only [List.any_eq_false]
        intro q hq
        simpa using hdisj kv (by simp) q hq
      simp [this]
    have hdisj' : ∀ p ∈ t, ∀ q ∈ h.vars ++ [(kv.1, kv.2)], q.1 ≠ p.1 := by
      intro p hp q hq
      rcases List.mem_append.mp hq with hq | hq
      · exact hdisj p (by simp [hp]) q hq
      · simp only [List.mem_singleton] at hq
        subst hq
        intro hcon
        exact hcons.1 (by simpa [hcon.symm] using List.mem_map_of_mem (fun p => p.1) hp)
    calc applyVars h (kv :: t)
        = applyVars (h.set kv.1 kv.2) t := by simp [applyVars]
      _ = { h with vars := (h.vars ++ [(kv.1, kv.2)]) ++ t } := by
            rw [hset]; exact ih _ hcons.2 hdisj'
      _ = { h with vars := h.vars ++ kv :: t } := by simp

/-- No row of `rows` carries host id `hid` in its host columns. -/
def rowsAvoidHostId (hid : Nat) (rows : List Row) : Prop :=
  ∀ r ∈ rows, ∀ hc, r.hostCols = some hc → hc.id ≠ hid

/-- No row of `rows` carries order id `oid`. -/
def rowsAvoidOrderId (oid : Nat) (rows : List Row) : Prop :=
  ∀ r ∈ rows, r.order_id ≠ oid

/-! One-step evaluation lemmas for the grouping loops. -/

theorem groupVarsNext_break (i : Nat) (r : Row) (rest : List Row)
    (h : ∀ hc, r.hostCols = some hc → hc.id ≠ i) :
    groupVarsNext i (r :: rest) = ([], r :: rest) := by
  simp only [groupVarsNext]
  cases hrc : r.hostCols with
  | none => rfl
  | some hc =>
    have : (hc.id == i) = false := by simpa using h hc hrc
    simp [this]

theorem groupVarsNext_stop (i : Nat) (r : Row) (rest : List Row) (hc : HostCols)
    (h1 : r.hostCols = some hc) (h2 : hc.id = i) (h3 : r.varCols = none) :
    groupVarsNext i (r :: rest) = ([], r :: rest) := by
  simp [groupVarsNext, h1, h2, h3]

theorem groupVarsNext_take (i : Nat) (r : Row) (rest : List Row) (hc : HostCols) (vc : VarCols)
    (h1 : r.hostCols = some hc) (h2 : hc.id = i) (h3 : r.varCols = some vc)
    (h4 : vc.host_id ≠ 0) :
    groupVarsNext i (r :: rest)
      = ((vc.name, vc.value) :: (groupVarsNext i rest).1, (groupVarsNext i rest).2) := by
  have h4' : (vc.host_id == 0) = false := by simpa using h4
  simp [groupVarsNext, h1, h2, h3, h4']

theorem groupHosts_nil (oid : Nat) : groupHosts oid [] = ([], []) := by
  simp [groupHosts]

theorem groupHosts_break (oid : Nat) (r : Row) (rest : List Row)
    (h : r.order_id ≠ oid) :
    groupHosts oid (r :: rest) = ([], r :: rest) := by
  unfold groupHosts
  cases hrc : r.hostCols with
  | none => rfl
  | some hc =>
    have hne : (r.order_id != oid) = true := by simpa using h
    by_cases h0 : hc.id == 0
    · simp [h0]
    · simp [h0, hne]

theorem groupHosts_novars (oid : Nat) (r : Row) (rest : List Row) (hc : HostCols)
    (h1 : r.hostCols = some hc) (h2 : hc.id ≠ 0) (h3 : r.order_id = oid)
    (h4 : r.varCols = none) :
    groupHosts oid (r :: rest)
      = (hostFromCols hc :: (groupHosts oid rest).1, (groupHosts oid rest).2) := by
  have h2' : (hc.id == 0) = false := by simpa using h2
  have h3' : (r.order_id != oid) = false := by simp [h3]
  rw [groupHosts]
  simp [h1, h2', h3', h4]

theorem groupHosts_vars (oid : Nat) (r : Row) (rest : List Row) (hc : HostCols) (vc : VarCols)
    (h1 : r.hostCols = some hc) (h2 : hc.id ≠ 0) (h3 : r.order_id = oid)
    (h4 : r.varCols = some vc) (h5 : vc.host_id ≠ 0) :
    groupHosts oid (r :: rest)
      = (applyVars (hostFromCols hc) ((vc.name, vc.value) :: (groupVarsNext hc.id rest).1)
           :: (groupHosts oid (groupVarsNext hc.id rest).2).1,
         (groupHosts oid (groupVarsNext hc.id rest).2).2) := by
  have h2' : (hc.id == 0) = false := by simpa using h2
  have h3' : (r.order_id != oid) = false := by simp [h3]
  have h5' : (vc.host_id == 0) = false := by simpa using h5
  rw [groupHosts]
  simp [h1, h2', h3', h4, h5']

theorem groupOrders_nil : groupOrders [] = [] := by
  simp [groupOrders]

theorem groupOrders_nohost (r : Row) (rest : List Row) (h0 : r.order_id ≠ 0)
    (h : (!r.hasHostCols || !hostIdTruthy r) = true) :
    groupOrders (r :: rest) = orderFromRow r :: groupOrders rest := by
  have h0' : (r.order_id == 0) = false := by simpa using h0
  rw [groupOrders]
  simp [h0', h]

theorem groupOrders_host (r : Row) (rest : List Row) (h0 : r.order_id ≠ 0)
    (h : (!r.hasHostCols || !hostIdTruthy r) = false) :
    groupOrders (r :: rest)
      = { orderFromRow r with hosts := (groupHosts r.order_id (r :: rest)).1 }
          :: groupOrders (groupHosts r.order_id (r :: rest)).2 := by
  have h0' : (r.order_id == 0) = false := by simpa using h0
  rw [groupOrders]
  simp [h0', h]

/-! Projection and equation lemmas for join-row construction. -/

@[simp] theorem hcOf_id (h : HostRow) : (hcOf h).id = h.id := rfl

@[simp] theorem hcOf_name (h : HostRow) : (hcOf h).name = h.name := rfl

@[simp] theorem hcOf_address (h : HostRow) : (hcOf h).address = h.address := rfl

@[simp] theorem baseRow_order_id (o : OrderRow) : (baseRow o).order_id = o.id := rfl

@[simp] theorem baseRow_hostCols (o : OrderRow) : (baseRow o).hostCols = none := rfl

@[simp] theorem baseRow_varCols (o : OrderRow) : (baseRow o).varCols = none := rfl

@[simp] theorem baseRow_hasHostCols (o : OrderRow) : (baseRow o).hasHostCols = true := rfl

@[simp] theorem hostOnlyRow_order_id (o : OrderRow) (hc : HostCols) :
    (hostOnlyRow o hc).order_id = o.id := rfl

@[simp] theorem hostOnlyRow_hostCols (o : OrderRow) (hc : HostCols) :
    (hostOnlyRow o hc).hostCols = some hc := rfl

@[simp] theorem hostOnlyRow_varCols (o : OrderRow) (hc : HostCols) :
    (hostOnlyRow o hc).varCols = none := rfl

@[simp] theorem hostOnlyRow_hasHostCols (o : OrderRow) (hc : HostCols) :
    (hostOnlyRow o hc).hasHostCols = true := rfl

@[simp] theorem varJoinRow_order_id (o : OrderRow) (hc : HostCols) (v : VarRow) :
    (varJoinRow o hc v).order_id = o.id := rfl

@[simp] theorem varJoinRow_hostCols (o : OrderRow) (hc : HostCols) (v : VarRow) :
    (varJoinRow o hc v).hostCols = some hc := rfl

@[simp] theorem varJoinRow_varCols (o : OrderRow) (hc : HostCols) (v : VarRow) :
    (varJoinRow o hc v).varCols = some ⟨v.host_id, v.name, v.value⟩ := rfl

@[simp] theorem varJoinRow_hasHostCols (o : OrderRow) (hc : HostCols) (v : VarRow) :
    (varJoinRow o hc v).hasHostCols = true := rfl

theorem rowsForHost_nilvars (o : OrderRow) (db : DB) (h : HostRow)
    (hv : varRowsFor db h.id = []) :
    rowsForHost o db h = [hostOnlyRow o (hcOf h)] := by
  unfold rowsForHost
  rw [hv]

theorem rowsForHost_consvars (o : OrderRow) (db : DB) (h : HostRow) (v : VarRow)
    (vt : List VarRow) (hv : varRowsFor db h.id = v :: vt) :
    rowsForHost o db h = (v :: vt).map (varJoinRow o (hcOf h)) := by
  unfold rowsForHost
  rw [hv]

theorem rowsForOrder_nilhosts (db : DB) (o : OrderRow) (hh : hostRowsFor db o.id = []) :
    rowsForOrder db o = [baseRow o] := by
  unfold rowsForOrder
  rw [hh]

theorem rowsForOrder_conshosts (db : DB) (o : OrderRow) (h : HostRow) (ht : List HostRow)
    (hh : hostRowsFor db o.id = h :: ht) :
    rowsForOrder db o = (h :: ht).flatMap (rowsForHost o db) := by
  unfold rowsForOrder
  rw [hh]

theorem mem_rowsForHost {o : OrderRow} {db : DB} {h : HostRow} {r : Row}
    (hr : r ∈ rowsForHost o db h) :
    r.order_id = o.id ∧ r.hasHostCols = true ∧ r.hostCols = some (hcOf h) := by
  unfold rowsForHost at hr
  cases hv : varRowsFor db h.id with
  | nil =>
    rw [hv] at hr
    simp only [List.mem_singleton] at hr
    subst hr
    simp
  | cons v vt =>
    rw [hv] at hr
    simp only [List.mem_map] at hr
    obtain ⟨w, _, hw⟩ := hr
    subst hw
    simp

theorem mem_rowsForOrder {db : DB} {o : OrderRow} {r : Row}
    (hr : r ∈ rowsForOrder db o) :
    r.order_id = o.id ∧ r.hasHostCols = true ∧
      ∀ hc, r.hostCols = some hc →
        ∃ h2, h2 ∈ db.hosts ∧ h2.order_id = o.id ∧ hc = hcOf h2 := by
  unfold rowsForOrder at hr
  cases hh : hostRowsFor db o.id with
  | nil =>
    rw [hh] at hr
    simp only [List.mem_singleton] at hr
    subst hr
    refine ⟨rfl, rfl, ?_⟩
    intro hc hcon
    simp at hcon
  | cons h ht =>
    rw [hh] at hr
    obtain ⟨h2, hh2, hrmem⟩ := List.mem_flatMap.mp hr
    obtain ⟨ho, hhas, hhc⟩ := mem_rowsForHost hrmem
    have hh2' : h2 ∈ hostRowsFor db o.id := by rw [hh]; exact hh2
    refine ⟨ho, hhas, ?_⟩
    intro hc hcon
    rw [hhc] at hcon
    injection hcon with hcon
    exact ⟨h2, (mem_hostRowsFor hh2').1, (mem_hostRowsFor hh2').2, hcon.symm⟩

theorem mem_joinRows {db : DB} {L : List OrderRow} {r : Row}
    (hr : r ∈ joinRows db L) :
    ∃ o, o ∈ L ∧ r.order_id = o.id ∧
      ∀ hc, r.hostCols = some hc →
        ∃ h2, h2 ∈ db.hosts ∧ h2.order_id = o.id ∧ hc = hcOf h2 := by
  unfold joinRows at hr
  obtain ⟨o, ho, hrmem⟩ := List.mem_flatMap.mp hr
  obtain ⟨h1, _, h3⟩ := mem_rowsForOrder hrmem
  exact ⟨o, ho, h1, h3⟩

theorem joinRows_avoid_order (db : DB) (L : List OrderRow) (oid : Nat)
    (h : oid ∉ L.map (fun o => o.id)) : rowsAvoidOrderId oid (joinRows db L) := by
  intro r hr
  obtain ⟨o, ho, hroid, _⟩ := mem_joinRows hr
  rw [hroid]
  intro hcon
  exact h (by simpa [hcon] using List.mem_map_of_mem (fun o => o.id) ho)

theorem joinRows_avoid_host (db : DB) (L : List OrderRow) (x : HostRow)
    (hmem : x ∈ db.hosts)
    (hnodup : (db.hosts.map (fun h => h.id)).Nodup)
    (hord : x.order_id ∉ L.map (fun o => o.id)) :
    rowsAvoidHostId x.id (joinRows db L) := by
  intro r hr hc hrc
  obtain ⟨o, hoL, hroid, hhost⟩ := mem_joinRows hr
  obtain ⟨h2, hh2, hh2o, hch2⟩ := hhost hc hrc
  subst hch2
  simp only [hcOf_id]
  intro hcon
  have heq : h2 = x := List.inj_on_of_nodup_map hnodup hh2 hmem hcon
  subst heq
  rw [hh2o] at hord
  exact hord (List.mem_map_of_mem (fun o => o.id) hoL)

/-- The innermost loop collects exactly the remaining variable rows of the
current host and stops at the first row of a different host. -/
theorem groupVarsNext_block (hid : Nat) (orow : OrderRow) (hcc : HostCols)
    (vt : List VarRow) (rows' : List Row)
    (hhid : ∀ v ∈ vt, v.host_id = hid) (h0 : hid ≠ 0) (hcid : hcc.id = hid)
    (hbnd : rowsAvoidHostId hid rows') :
    groupVarsNext hid (vt.map (varJoinRow orow hcc) ++ rows')
      = (vt.map (fun v => (v.name, v.value)), rows') := by
  induction vt with
  | nil =>
    simp only [List.map_nil, List.nil_append]
    cases rows' with
    | nil => rfl
    | cons r t => exact groupVarsNext_break hid r t (fun hc hrc => hbnd r (by simp) hc hrc)
  | cons v vt' ih =>
    simp only [List.map_cons, List.cons_append]
    rw [groupVarsNext_take hid _ _ hcc ⟨v.host_id, v.name, v.value⟩ rfl hcid rfl
      (by simpa using (hhid v (by simp)) ▸ h0)]
    rw [ih (fun w hw => hhid w (by simp [hw]))]

/-- The middle loop consumes exactly the host blocks of the current order,
materializing each host with its variables, and stops at the boundary. -/
theorem groupHosts_blocks (db : DB) (orow : OrderRow) (hs : List HostRow)
    (rows' : List Row)
    (hid0 : ∀ h ∈ hs, h.id ≠ 0)
    (hnodup : (hs.map (fun h => h.id)).Nodup)
    (hvarnames : ∀ h ∈ hs, ((varRowsFor db h.id).map (fun v => v.name)).Nodup)
    (hbnd1 : rowsAvoidOrderId orow.id rows')
    (hbnd2 : ∀ h ∈ hs, rowsAvoidHostId h.id rows') :
    groupHosts orow.id (hs.flatMap (rowsForHost orow db) ++ rows')
      = (hs.map (hostOf db), rows') := by
  induction hs with
  | nil =>
    simp only [List.flatMap_nil, List.nil_append, List.map_nil]
    cases rows' with
    | nil => exact groupHosts_nil orow.id
    | cons r t => exact groupHosts_break orow.id r t (hbnd1 r (by simp))
  | cons h hs' ih =>
    have hidne : h.id ≠ 0 := hid0 h (by simp)
    rw [List.map_cons] at hnodup
    have hcons := List.nodup_cons.mp hnodup
    have havoid : rowsAvoidHostId h.id (hs'.flatMap (rowsForHost orow db) ++ rows') := by
      intro r hr hc hrc
      rcases List.mem_append.mp hr with hr | hr
      · obtain ⟨h2, hh2, hrmem⟩ := List.mem_flatMap.mp hr
        have hhc := (mem_rowsForHost hrmem).2.2
        rw [hhc] at hrc
        injection hrc with hrc
        subst hrc
        simp only [hcOf_id]
        intro hcon
        exact hcons.1 (by simpa [hcon] using List.mem_map_of_mem (fun x => x.id) hh2)
      · exact hbnd2 h (by simp) r hr hc hrc
    have ihx := ih (fun x hx => hid0 x (by simp [hx])) hcons.2
      (fun x hx => hvarnames x (by simp [hx]))
      (fun x hx => hbnd2 x (by simp [hx]))
    rw [List.flatMap_cons, List.append_assoc]
    cases hv : varRowsFor db h.id with
    | nil =>
      rw [rowsForHost_nilvars orow db h hv, List.singleton_append]
      rw [groupHosts_novars orow.id _ _ (hcOf h) rfl (by simpa using hidne) rfl rfl]
      rw [ihx]
      have heq : hostOf db h = hostFromCols (hcOf h) := by
        unfold hostOf hostFromCols
        simp [hv]
      rw [List.map_cons, heq]
    | cons v vt =>
      have hvhid : ∀ w ∈ varRowsFor db h.id, w.host_id = h.id :=
        fun w hw => (mem_varRowsFor hw).2
      have hvh : v.host_id = h.id := hvhid v (by simp [hv])
      rw [rowsForHost_consvars orow db h v vt hv, List.map_cons, List.cons_append]
      rw [groupHosts_vars orow.id _ _ (hcOf h) ⟨v.host_id, v.name, v.value⟩ rfl
        (by simpa using hidne) rfl rfl (by simpa using hvh ▸ hidne)]
      simp only [hcOf_id]
      rw [groupVarsNext_block h.id orow (hcOf h) vt
        (hs'.flatMap (rowsForHost orow db) ++ rows')
        (fun w hw => hvhid w (by simp [hv, hw])) hidne (hcOf_id h) havoid]
      rw [ihx]
      have hnames : (((v.name, v.value) :: vt.map (fun w => (w.name, w.value))).map
          (fun p => p.1)).Nodup := by
        have := hvarnames h (by simp)
        rw [hv] at this
        simpa [Function.comp] using this
      rw [applyVars_nodup (hostFromCols (hcOf h))
        ((v.name, v.value) :: vt.map (fun w => (w.name, w.value))) hnames
        (by intro p hp q hq; simp [hostFromCols] at hq)]
      have heq : ({ hostFromCols (hcOf h) with
          vars := (hostFromCols (hcOf h)).vars ++
            (v.name, v.value) :: vt.map (fun w => (w.name, w.value)) } : Host)
          = hostOf db h := by
        unfold hostOf hostFromCols
        simp [hv]
      rw [List.map_cons, heq]

/-- The first row of a nonempty host-block sequence carries the first host's
columns and the order's columns. -/
theorem blocks_head_shape (o : OrderRow) (db : DB) (h : HostRow) (ht : List HostRow) :
    ∃ r0 brest, (h :: ht).flatMap (rowsForHost o db) = r0 :: brest ∧
      r0.hostCols = some (hcOf h) ∧ r0.order_id = o.id ∧ r0.hasHostCols = true ∧
      r0.service = o.service ∧ r0.status = o.status ∧ r0.closed = o.closed ∧
      r0.created_by = o.created_by := by
  rw [List.flatMap_cons]
  cases hv : varRowsFor db h.id with
  | nil =>
    rw [rowsForHost_nilvars o db h hv, List.singleton_append]
    exact ⟨hostOnlyRow o (hcOf h), _, rfl, rfl, rfl, rfl, rfl, rfl, rfl, rfl⟩
  | cons v vt =>
    rw [rowsForHost_consvars o db h v vt hv, List.map_cons, List.cons_append]
    exact ⟨varJoinRow o (hcOf h) v, _, rfl, rfl, rfl, rfl, rfl, rfl, rfl, rfl⟩

/-- Materialization correctness: the single forward pass of
`__get_orders_from_query` over the outer-join result set of a chosen order
list reconstructs exactly those orders, each with the hosts and variables the
tables store for it.  The hypotheses are the schema facts of a well-formed
database: positive, duplicate-free primary keys. -/
theorem groupOrders_joinRows (db : DB) (L : List OrderRow)
    (hids : (L.map (fun o => o.id)).Nodup)
    (h0 : ∀ o ∈ L, o.id ≠ 0)
    (hhostnodup : (db.hosts.map (fun h => h.id)).Nodup)
    (hhost0 : ∀ h ∈ db.hosts, h.id ≠ 0)
    (hvarnames : ∀ hid, ((varRowsFor db hid).map (fun v => v.name)).Nodup) :
    groupOrders (joinRows db L) = L.map (orderOf db) := by
  induction L with
  | nil => simp [joinRows, groupOrders_nil]
  | cons o L' ih =>
    rw [List.map_cons] at hids
    have hcons := List.nodup_cons.mp hids
    have hoid : o.id ≠ 0 := h0 o (by simp)
    have ihx := ih hcons.2 (fun x hx => h0 x (by simp [hx]))
    have hjoin : joinRows db (o :: L') = rowsForOrder db o ++ joinRows db L' := by
      unfold joinRows
      rw [List.flatMap_cons]
    rw [hjoin]
    cases hh : hostRowsFor db o.id with
    | nil =>
      rw [rowsForOrder_nilhosts db o hh, List.singleton_append]
      rw [groupOrders_nohost (baseRow o) _ (by simpa using hoid)
        (by simp [hostIdTruthy])]
      rw [ihx, List.map_cons]
      have : orderFromRow (baseRow o) = orderOf db o := by
        unfold orderFromRow orderOf baseRow
        simp [hh]
      rw [this]
    | cons h ht =>
      have hmemdb : ∀ x ∈ hostRowsFor db o.id, x ∈ db.hosts :=
        fun x hx => (mem_hostRowsFor hx).1
      have hhdb : h ∈ db.hosts := hmemdb h (by simp [hh])
      have hhid0 : h.id ≠ 0 := hhost0 h hhdb
      obtain ⟨r0, brest, hblocks, hr0hc, hr0oid, hr0has, hr0s, hr0st, hr0c, hr0cb⟩ :=
        blocks_head_shape o db h ht
      rw [rowsForOrder_conshosts db o h ht hh, hblocks, List.cons_append]
      have htruthy : hostIdTruthy r0 = true := by
        unfold hostIdTruthy
        rw [hr0hc]
        simpa using hhid0
      rw [groupOrders_host r0 _ (by rw [hr0oid]; exact hoid)
        (by simp [hr0has, htruthy])]
      have hback : r0 :: (brest ++ joinRows db L')
          = (h :: ht).flatMap (rowsForHost o db) ++ joinRows db L' := by
        rw [hblocks, List.cons_append]
      have hsub : ((h :: ht).map (fun x => x.id)).Nodup := by
        have : (h :: ht).Sublist db.hosts := by
          rw [← hh]
          exact List.filter_sublist _
        exact hhostnodup.sublist (this.map (fun x => x.id))
      have hbnd1 : rowsAvoidOrderId o.id (joinRows db L') :=
        joinRows_avoid_order db L' o.id hcons.1
      have hbnd2 : ∀ x ∈ h :: ht, rowsAvoidHostId x.id (joinRows db L') := by
        intro x hx
        have hxm : x ∈ hostRowsFor db o.id := by rw [hh]; exact hx
        refine joinRows_avoid_host db L' x (mem_hostRowsFor hxm).1 hhostnodup ?_
        rw [(mem_hostRowsFor hxm).2]
        exact hcons.1
      have hblk := groupHosts_blocks db o (h :: ht) (joinRows db L')
        (fun x hx => hhost0 x (hmemdb x (by rw [hh]; exact hx))) hsub
        (fun x hx => hvarnames x.id) hbnd1 hbnd2
      rw [hr0oid, hback, hblk, ihx]
      simp only [List.map_cons]
      congr 1
      unfold orderFromRow orderOf
      simp [hr0oid, hr0s, hr0st, hr0c, hr0cb, hh]

/-! ### The query of `get_orders`: sorting, pagination, subselect -/

theorem contains_eq_mem (l : List Nat) (x : Nat) : l.contains x = decide (x ∈ l) :=
  List.elem_eq_mem x l

theorem insertDescById_small (o : OrderRow) (l : List OrderRow)
    (h : ∀ x ∈ l, o.id < x.id) : insertDescById o l = l ++ [o] := by
  induction l with
  | nil => rfl
  | cons x xs ih =>
    have hx : ¬ (x.id ≤ o.id) := by
      have := h x (by simp)
      omega
    simp only [insertDescById, hx, if_false]
    rw [ih (fun y hy => h y (by simp [hy]))]
    rfl

/-- Sorting an id-ascending list by descending id reverses it. -/
theorem sortDescById_asc (l : List OrderRow)
    (h : l.Pairwise (fun a b => a.id < b.id)) : sortDescById l = l.reverse := by
  induction l with
  | nil => rfl
  | cons x xs ih =>
    rw [List.pairwise_cons] at h
    simp only [sortDescById]
    rw [ih h.2, insertDescById_small x xs.reverse (fun y hy => h.1 y (List.mem_reverse.mp hy))]
    simp

/-- Filtering a duplicate-free table by membership of the ids of one of its
sublists recovers exactly that sublist: the outer join of `get_orders`
against the id subselect selects exactly the subselect's orders. -/
theorem filter_mem_ids_of_sublist (l t : List OrderRow)
    (hsub : t.Sublist l) (hnd : (l.map (fun o => o.id)).Nodup) :
    l.filter (fun o => (t.map (fun x => x.id)).contains o.id) = t := by
  induction hsub with
  | slnil => simp
  | @cons t' l' a hsub ih =>
    rw [List.map_cons] at hnd
    have hcons := List.nodup_cons.mp hnd
    have hnotin : (t'.map (fun x => x.id)).contains a.id = false := by
      rw [contains_eq_mem]
      simp only [decide_eq_false_iff_not]
      intro hmem
      exact hcons.1 (((hsub.map (fun x => x.id)).subset) hmem)
    rw [List.filter_cons_of_neg (by rw [hnotin]; simp)]
    exact ih hcons.2
  | @cons₂ t' l' a hsub ih =>
    rw [List.map_cons] at hnd
    have hcons := List.nodup_cons.mp hnd
    rw [List.filter_cons_of_pos (by simp [contains_eq_mem])]
    have hstep : l'.filter (fun o => ((a :: t').map (fun x => x.id)).contains o.id)
        = l'.filter (fun o => (t'.map (fun x => x.id)).contains o.id) := by
      refine List.filter_congr (fun o ho => ?_)
      have hne : o.id ≠ a.id := by
        intro hcon
        exact hcons.1 (hcon ▸ List.mem_map_of_mem (fun x => x.id) ho)
      simp [contains_eq_mem, hne]
    rw [hstep, ih hcons.2]

theorem applyLimit_map {α β : Type} (f : α → β) (lim : Nat) (l : List α) :
    applyLimit lim (l.map f) = (applyLimit lim l).map f := by
  unfold applyLimit
  by_cases h : lim == 0
  · simp [h]
  · simp [h, List.map_take]

theorem applyLimit_sublist {α : Type} (lim : Nat) (l : List α) :
    (applyLimit lim l).Sublist l := by
  unfold applyLimit
  by_cases h : lim == 0
  · simp [h]
  · simp only [h, Bool.false_eq_true, if_false]
    exact List.take_sublist _ _

/-- The characterization of the recursive `get_orders` query on a well-formed
database: the criteria filter the order table in scan (ascending-id) order,
offset and limit slice THAT list (the id subselect has no ORDER BY), and the
result presents the sliced orders in descending id order, each materialized
with its full host/variable tree. -/
theorem get_orders_rec_eq (off lim : Nat) (c : Criteria) (db : DB)
    (f : QueryFacts db) :
    get_orders off lim true c db
      = ((applyLimit lim ((db.orders.filter (matchRow c)).drop off)).reverse).map
          (orderOf db) := by
  have hslice :
      applyLimit lim (((db.orders.filter (matchRow c)).map (fun o => o.id)).drop off)
        = (applyLimit lim ((db.orders.filter (matchRow c)).drop off)).map
            (fun o => o.id) := by
    rw [← List.map_drop, applyLimit_map]
  have hsub : (applyLimit lim ((db.orders.filter (matchRow c)).drop off)).Sublist
      db.orders :=
    ((applyLimit_sublist _ _).trans (List.drop_sublist _ _)).trans
      (List.filter_sublist _)
  have hrev_nodup :
      (((applyLimit lim ((db.orders.filter (matchRow c)).drop off)).reverse).map
        (fun o => o.id)).Nodup := by
    rw [List.map_reverse]
    exact (List.nodup_reverse).mpr
      ((f.idsNodup).sublist (hsub.map (fun o => o.id)))
  have hrev0 : ∀ o ∈ (applyLimit lim ((db.orders.filter (matchRow c)).drop off)).reverse,
      o.id ≠ 0 := by
    intro o ho
    have := f.ordersPos o (hsub.subset (List.mem_reverse.mp ho))
    omega
  have hhost0 : ∀ h ∈ db.hosts, h.id ≠ 0 := by
    intro h hh
    have := f.hostsPos h hh
    omega
  unfold get_orders
  simp only [if_true, hslice]
  rw [filter_mem_ids_of_sublist db.orders _ hsub f.idsNodup]
  rw [sortDescById_asc _ (f.ordersSorted.sublist hsub)]
  rw [groupOrders_joinRows db _ hrev_nodup hrev0 f.hostsIdNodup hhost0 f.varNames]

/-! ### The effect of the insert path (`add_order` and its helpers) -/

/-- The variable rows `__add_variable` creates for one host's mapping, with
the ids the auto-increment counter assigns. -/
def numberVars (hid : Nat) (vid : Nat) : List (String × Value) → List VarRow
  | [] => []
  | kv :: t => ⟨vid, hid, kv.1, kv.2⟩ :: numberVars hid (vid + 1) t

/-- The host rows `__add_host` creates for an all-dirty host list. -/
def builtHostRows (oid : Nat) (hid0 : Nat) : List Host → List HostRow
  | [] => []
  | h :: t => ⟨hid0, oid, h.address, h.name⟩ :: builtHostRows oid (hid0 + 1) t

/-- The variable rows created for an all-dirty host list. -/
def builtVarRows (hid0 : Nat) (vid0 : Nat) : List Host → List VarRow
  | [] => []
  | h :: t => numberVars hid0 vid0 h.vars ++ builtVarRows (hid0 + 1) (vid0 + h.vars.length) t

def totalVars (hs : List Host) : Nat := (hs.map (fun h => h.vars.length)).sum

theorem addVarsFold_eq (hid : Nat) (kvs : List (String × Value)) (st : St) :
    kvs.foldl (fun acc kv => (add_variable_impl hid kv.1 kv.2 acc).2) st
      = { db := { st.db with
            vars := st.db.vars ++ numberVars hid st.db.nextVarId kvs,
            nextVarId := st.db.nextVarId + kvs.length },
          lockDepth := st.lockDepth, lockAcqs := st.lockAcqs + kvs.length } := by
  induction kvs generalizing st with
  | nil => simp [numberVars]
  | cons kv t ih =>
    rw [List.foldl_cons]
    have hstep : (add_variable_impl hid kv.1 kv.2 st).2
        = { db := { st.db with
              vars := st.db.vars ++ [⟨st.db.nextVarId, hid, kv.1, kv.2⟩],
              nextVarId := st.db.nextVarId + 1 },
            lockDepth := st.lockDepth, lockAcqs := st.lockAcqs + 1 } := rfl
    rw [hstep, ih]
    simp only [numberVars, St.mk.injEq, DB.mk.injEq, List.append_assoc, List.singleton_append,
      List.cons_append, List.nil_append, List.length_cons, and_true, true_and]
    omega

theorem add_host_impl_clean_eq (oid : Nat) (h : Host) (st : St) (hd : h.dirty = false) :
    add_host_impl oid h st = ((h, none), { st with lockAcqs := st.lockAcqs + 1 }) := by
  unfold add_host_impl synchronized
  simp [hd]

theorem add_host_impl_dirty_eq (oid : Nat) (h : Host) (st : St) (hd : h.dirty = true) :
    add_host_impl oid h st
      = (({ h with dirty := false }, some st.db.nextHostId),
         { db := { st.db with
              hosts := st.db.hosts ++ [⟨st.db.nextHostId, oid, h.address, h.name⟩],
              nextHostId := st.db.nextHostId + 1,
              vars := st.db.vars ++ numberVars st.db.nextHostId st.db.nextVarId h.vars,
              nextVarId := st.db.nextVarId + h.vars.length },
           lockDepth := st.lockDepth,
           lockAcqs := st.lockAcqs + 1 + h.vars.length }) := by
  unfold add_host_impl synchronized
  simp only [hd, Bool.not_true, Bool.false_eq_true, if_false]
  rw [addVarsFold_eq]
  simp only [St.mk.injEq, DB.mk.injEq, Prod.mk.injEq, and_true, true_and]
  omega

theorem addHostsFold_eq (oid : Nat) (hs : List Host) (acc : List Host) (st : St)
    (hd : ∀ h ∈ hs, h.dirty = true) :
    hs.foldl (addHostStep oid) (acc, st)
      = (acc ++ hs.map (fun h => { h with dirty := false }),
         { db := { st.db with
              hosts := st.db.hosts ++ builtHostRows oid st.db.nextHostId hs,
              nextHostId := st.db.nextHostId + hs.length,
              vars := st.db.vars ++ builtVarRows st.db.nextHostId st.db.nextVarId hs,
              nextVarId := st.db.nextVarId + totalVars hs },
           lockDepth := st.lockDepth,
           lockAcqs := st.lockAcqs + hs.length + totalVars hs }) := by
  induction hs generalizing acc st with
  | nil => simp [builtHostRows, builtVarRows, totalVars]
  | cons h t ih =>
    rw [List.foldl_cons]
    have hstep : addHostStep oid (acc, st) h
        = (acc ++ [{ h with dirty := false }],
           { db := { st.db with
                hosts := st.db.hosts ++ [⟨st.db.nextHostId, oid, h.address, h.name⟩],
                nextHostId := st.db.nextHostId + 1,
                vars := st.db.vars ++ numberVars st.db.nextHostId st.db.nextVarId h.vars,
                nextVarId := st.db.nextVarId + h.vars.length },
             lockDepth := st.lockDepth,
             lockAcqs := st.lockAcqs + 1 + h.vars.length }) := by
      unfold addHostStep
      rw [add_host_impl_dirty_eq oid h st (hd h (by simp))]
    rw [hstep, ih _ _ (fun x hx => hd x (by simp [hx]))]
    simp only [builtHostRows, builtVarRows, totalVars, List.map_cons, List.sum_cons,
      List.length_cons, Prod.mk.injEq, St.mk.injEq, DB.mk.injEq, List.append_assoc,
      List.cons_append, List.singleton_append, List.nil_append, and_true, true_and]
    omega

theorem add_order_impl_dirty_eq (o : Order) (st : St)
    (hd : ∀ h ∈ o.hosts, h.dirty = true) :
    add_order_impl (some o) true st
      = (Except.ok { o with
            id := some st.db.nextOrderId,
            hosts := o.hosts.map (fun h => { h with dirty := false }) },
         { db := { st.db with
              orders := st.db.orders ++
                [⟨st.db.nextOrderId, o.service, o.status, o.closed, o.created_by⟩],
              nextOrderId := st.db.nextOrderId + 1,
              hosts := st.db.hosts ++ builtHostRows st.db.nextOrderId st.db.nextHostId o.hosts,
              nextHostId := st.db.nextHostId + o.hosts.length,
              vars := st.db.vars ++ builtVarRows st.db.nextHostId st.db.nextVarId o.hosts,
              nextVarId := st.db.nextVarId + totalVars o.hosts },
           lockDepth := st.lockDepth,
           lockAcqs := st.lockAcqs + 1 + o.hosts.length + totalVars o.hosts }) := by
  unfold add_order_impl synchronized
  simp only [Bool.not_true, Bool.false_eq_true, if_false]
  rw [addHostsFold_eq _ _ _ _ hd]
  simp only [Prod.mk.injEq, St.mk.injEq, DB.mk.injEq, Except.ok.injEq, Order.mk.injEq,
    List.nil_append, and_true, true_and]
  omega

/-! Facts about the rows built by the insert path. -/

theorem numberVars_hostid (hid vid : Nat) (kvs : List (String × Value)) :
    ∀ v ∈ numberVars hid vid kvs, v.host_id = hid := by
  induction kvs generalizing vid with
  | nil => simp [numberVars]
  | cons kv t ih =>
    intro v hv
    simp only [numberVars, List.mem_cons] at hv
    rcases hv with hv | hv
    · rw [hv]
    · exact ih (vid + 1) v hv

theorem numberVars_pairs (hid vid : Nat) (kvs : List (String × Value)) :
    (numberVars hid vid kvs).map (fun v => (v.name, v.value)) = kvs := by
  induction kvs generalizing vid with
  | nil => simp [numberVars]
  | cons kv t ih => simp [numberVars, ih]

theorem numberVars_names (hid vid : Nat) (kvs : List (String × Value)) :
    (numberVars hid vid kvs).map (fun v => v.name) = kvs.map (fun p => p.1) := by
  induction kvs generalizing vid with
  | nil => simp [numberVars]
  | cons kv t ih => simp [numberVars, ih]

theorem numberVars_filter_self (hid vid : Nat) (kvs : List (String × Value)) :
    (numberVars hid vid kvs).filter (fun v => v.host_id == hid)
      = numberVars hid vid kvs :=
  List.filter_eq_self.mpr (fun v hv => by simp [numberVars_hostid hid vid kvs v hv])

theorem numberVars_filter_ne (hid vid x : Nat) (kvs : List (String × Value))
    (hx : x ≠ hid) :
    (numberVars hid vid kvs).filter (fun v => v.host_id == x) = [] :=
  List.filter_eq_nil_iff.mpr (fun v hv => by
    simp only [numberVars_hostid hid vid kvs v hv, beq_iff_eq]
    exact fun hcon => hx hcon.symm)

theorem builtHostRows_ids (oid hid0 : Nat) (hs : List Host) :
    (builtHostRows oid hid0 hs).map (fun h => h.id) = List.range' hid0 hs.length := by
  induction hs generalizing hid0 with
  | nil => simp [builtHostRows]
  | cons h t ih => simp [builtHostRows, ih, List.range'_succ]

theorem builtHostRows_shape (oid hid0 : Nat) (hs : List Host) :
    ∀ h ∈ builtHostRows oid hid0 hs, h.order_id = oid ∧ hid0 ≤ h.id := by
  induction hs generalizing hid0 with
  | nil => simp [builtHostRows]
  | cons x t ih =>
    intro h hh
    simp only [builtHostRows, List.mem_cons] at hh
    rcases hh with hh | hh
    · rw [hh]
      exact ⟨rfl, Nat.le_refl _⟩
    · have := ih (hid0 + 1) h hh
      exact ⟨this.1, by omega⟩

theorem builtHostRows_filter_self (oid hid0 : Nat) (hs : List Host) :
    (builtHostRows oid hid0 hs).filter (fun h => h.order_id == oid)
      = builtHostRows oid hid0 hs :=
  List.filter_eq_self.mpr (fun h hh => by simp [(builtHostRows_shape oid hid0 hs h hh).1])

theorem builtVarRows_hostid_ge (hid0 vid0 : Nat) (hs : List Host) :
    ∀ v ∈ builtVarRows hid0 vid0 hs, hid0 ≤ v.host_id := by
  induction hs generalizing hid0 vid0 with
  | nil => simp [builtVarRows]
  | cons h t ih =>
    intro v hv
    simp only [builtVarRows, List.mem_append] at hv
    rcases hv with hv | hv
    · rw [numberVars_hostid hid0 vid0 h.vars v hv]
    · have := ih (hid0 + 1) (vid0 + h.vars.length) v hv
      omega

/-- Filtering the freshly inserted variable rows by a host id yields either
nothing or exactly the numbered variable mapping of one inserted host. -/
theorem builtVarRows_filter (hid0 vid0 x : Nat) (hs : List Host) :
    (builtVarRows hid0 vid0 hs).filter (fun v => v.host_id == x) = []
    ∨ (hid0 ≤ x ∧ ∃ h ∈ hs, ∃ vid,
        (builtVarRows hid0 vid0 hs).filter (fun v => v.host_id == x)
          = numberVars x vid h.vars) := by
  induction hs generalizing hid0 vid0 with
  | nil => simp [builtVarRows]
  | cons h t ih =>
    simp only [builtVarRows, List.filter_append]
    by_cases hx : x = hid0
    · subst hx
      rw [numberVars_filter_self]
      have htail : (builtVarRows (x + 1) (vid0 + h.vars.length) t).filter
          (fun v => v.host_id == x) = [] := by
        refine List.filter_eq_nil_iff.mpr (fun v hv => ?_)
        have := builtVarRows_hostid_ge (x + 1) (vid0 + h.vars.length) t v hv
        simp only [beq_iff_eq]
        omega
      rw [htail, List.append_nil]
      exact Or.inr ⟨Nat.le_refl _, h, by simp, vid0, rfl⟩
    · rw [numberVars_filter_ne hid0 vid0 x h.vars (fun hcon => hx hcon)]
      rw [List.nil_append]
      rcases ih (hid0 + 1) (vid0 + h.vars.length) with hcase | ⟨hge, h2, hh2, vid, hcase⟩
      · exact Or.inl hcase
      · exact Or.inr ⟨by omega, h2, by simp [hh2], vid, hcase⟩

/-- Materializing the freshly inserted host rows recovers exactly the
in-memory hosts that were inserted (name, address, variable mapping). -/
theorem builtRows_materialize (db2 : DB) (oid hid0 vid0 : Nat) (hs : List Host)
    (oldvars : List VarRow)
    (hdb : db2.vars = oldvars ++ builtVarRows hid0 vid0 hs)
    (hold : ∀ v ∈ oldvars, v.host_id < hid0) :
    (builtHostRows oid hid0 hs).map (hostOf db2)
      = hs.map (fun h => { name := h.name, address := h.address, vars := h.vars,
                           dirty := true }) := by
  induction hs generalizing hid0 vid0 oldvars with
  | nil => simp [builtHostRows]
  | cons h t ih =>
    simp only [builtHostRows, List.map_cons]
    have hvr : varRowsFor db2 hid0 = numberVars hid0 vid0 h.vars := by
      unfold varRowsFor
      rw [hdb, List.filter_append]
      have h1 : oldvars.filter (fun v => v.host_id == hid0) = [] := by
        refine List.filter_eq_nil_iff.mpr (fun v hv => ?_)
        have := hold v hv
        simp only [beq_iff_eq]
        omega
      rw [h1, List.nil_append]
      simp only [builtVarRows, List.filter_append]
      rw [numberVars_filter_self]
      have h3 : (builtVarRows (hid0 + 1) (vid0 + h.vars.length) t).filter
          (fun v => v.host_id == hid0) = [] := by
        refine List.filter_eq_nil_iff.mpr (fun v hv => ?_)
        have := builtVarRows_hostid_ge (hid0 + 1) (vid0 + h.vars.length) t v hv
        simp only [beq_iff_eq]
        omega
      rw [h3, List.append_nil]
    have hhead : hostOf db2 ⟨hid0, oid, h.address, h.name⟩
        = { name := h.name, address := h.address, vars := h.vars, dirty := true } := by
      unfold hostOf
      rw [hvr, numberVars_pairs]
    rw [hhead]
    rw [ih (hid0 + 1) (vid0 + h.vars.length) (oldvars ++ numberVars hid0 vid0 h.vars)
      (by rw [hdb]; simp [builtVarRows])
      (by
        intro v hv
        rcases List.mem_append.mp hv with hv | hv
        · have := hold v hv
          omega
        · rw [numberVars_hostid hid0 vid0 h.vars v hv]
          omega)]

/-! ### Round trip: insert, then query by id -/

/-- The criteria `get_orders(id=n)`. -/
def byId (n : Nat) : Criteria := { id := some [n], service := none, status := none }

theorem matchRow_byId (n : Nat) (r : OrderRow) :
    matchRow (byId n) r = (r.id == n) := by
  by_cases h : r.id = n <;>
    simp [matchRow, byId, fieldMatch, contains_eq_mem, h]

theorem add_order_single_eq (o o' : Order) (st st2 : St)
    (h : add_order_impl (some o) true st = (Except.ok o', st2)) :
    add_order [some o] true st = ((Except.ok (), [some o']), st2) := by
  unfold add_order add_order_loop
  rw [h]
  simp [add_order_loop]

/-- The query facts survive the insertion of one order with its (possibly
duplicate-address) hosts, as long as each host's variable names are distinct
(they come from a Python dict). -/
theorem queryFacts_insert (db : DB) (f : DBFacts db) (o : Order)
    (hnames : ∀ h ∈ o.hosts, (h.vars.map (fun p => p.1)).Nodup) :
    QueryFacts { db with
      orders := db.orders ++
        [⟨db.nextOrderId, o.service, o.status, o.closed, o.created_by⟩],
      nextOrderId := db.nextOrderId + 1,
      hosts := db.hosts ++ builtHostRows db.nextOrderId db.nextHostId o.hosts,
      nextHostId := db.nextHostId + o.hosts.length,
      vars := db.vars ++ builtVarRows db.nextHostId db.nextVarId o.hosts,
      nextVarId := db.nextVarId + totalVars o.hosts } := by
  refine ⟨?_, ?_, ?_, ?_, ?_⟩
  · rw [List.pairwise_append]
    refine ⟨f.ordersSorted, by simp, ?_⟩
    intro a ha b hb
    simp only [List.mem_singleton] at hb
    subst hb
    exact f.ordersLt a ha
  · intro x hx
    rcases List.mem_append.mp hx with hx | hx
    · exact f.ordersPos x hx
    · simp only [List.mem_singleton] at hx
      subst hx
      exact f.nextOrderPos
  · rw [List.map_append, List.nodup_append]
    refine ⟨f.hostsIdNodup, ?_, ?_⟩
    · rw [builtHostRows_ids]
      exact List.nodup_range' _ _
    · intro x hx hx2
      obtain ⟨a, ha, hax⟩ := List.mem_map.mp hx
      rw [builtHostRows_ids] at hx2
      rw [List.mem_range'] at hx2
      obtain ⟨i, hi, hxi⟩ := hx2
      have := f.hostsLt a ha
      omega
  · intro x hx
    rcases List.mem_append.mp hx with hx | hx
    · exact f.hostsPos x hx
    · have := (builtHostRows_shape db.nextOrderId db.nextHostId o.hosts x hx).2
      have := f.nextHostPos
      omega
  · intro hid
    have hsplit : varRowsFor { db with
        orders := db.orders ++
          [⟨db.nextOrderId, o.service, o.status, o.closed, o.created_by⟩],
        nextOrderId := db.nextOrderId + 1,
        hosts := db.hosts ++ builtHostRows db.nextOrderId db.nextHostId o.hosts,
        nextHostId := db.nextHostId + o.hosts.length,
        vars := db.vars ++ builtVarRows db.nextHostId db.nextVarId o.hosts,
        nextVarId := db.nextVarId + totalVars o.hosts } hid
        = varRowsFor db hid ++
          (builtVarRows db.nextHostId db.nextVarId o.hosts).filter
            (fun v => v.host_id == hid) := by
      unfold varRowsFor
      rw [List.filter_append]
    rw [hsplit]
    rcases builtVarRows_filter db.nextHostId db.nextVarId hid o.hosts with hc | ⟨hge, h, hh, vid, hc⟩
    · rw [hc, List.append_nil]
      exact f.varNamesNodup hid
    · have hold : varRowsFor db hid = [] := by
        refine List.filter_eq_nil_iff.mpr (fun v hv => ?_)
        have := f.varsHostLt v hv
        simp only [beq_iff_eq]
        omega
      rw [hold, hc, List.nil_append, numberVars_names]
      exact hnames h hh

/-- C1: for every Order with N hosts (N ≥ 0), each host dirty and carrying M
variables (M ≥ 0, with the distinct names of a Python dict), `add_order`
followed by `get_orders(id=order.id)` returns a list containing exactly one
Order whose service, status, closed, created_by, hosts (by name and address)
and per-host variable name-to-value mappings are equivalent to the order that
was added. -/
theorem c1_round_trip (st : St) (o : Order)
    (hwf : st.db.wfb = true)
    (hdirty : ∀ h ∈ o.hosts, h.dirty = true)
    (hnames : ∀ h ∈ o.hosts, (h.vars.map (fun p => p.1)).Nodup) :
    ∃ o' st', add_order [some o] true st = ((Except.ok (), [some o']), st') ∧
      o'.id = some st.db.nextOrderId ∧
      ∃ g, get_orders 0 0 true (byId st.db.nextOrderId) st'.db = [g] ∧
        g.service = o.service ∧ g.status = o.status ∧ g.closed = o.closed ∧
        g.created_by = o.created_by ∧
        g.hosts.map (fun h => h.name) = o.hosts.map (fun h => h.name) ∧
        g.hosts.map (fun h => h.address) = o.hosts.map (fun h => h.address) ∧
        g.hosts.map (fun h => h.vars) = o.hosts.map (fun h => h.vars) := by
  have f := DB.wfb_facts st.db hwf
  have heq := add_order_impl_dirty_eq o st hdirty
  have hadd := add_order_single_eq o _ st _ heq
  refine ⟨_, _, hadd, rfl, ?_⟩
  set D : DB := { st.db with
      orders := st.db.orders ++
        [⟨st.db.nextOrderId, o.service, o.status, o.closed, o.created_by⟩],
      nextOrderId := st.db.nextOrderId + 1,
      hosts := st.db.hosts ++ builtHostRows st.db.nextOrderId st.db.nextHostId o.hosts,
      nextHostId := st.db.nextHostId + o.hosts.length,
      vars := st.db.vars ++ builtVarRows st.db.nextHostId st.db.nextVarId o.hosts,
      nextVarId := st.db.nextVarId + totalVars o.hosts } with hD
  have hDo : D.orders = st.db.orders ++
      [⟨st.db.nextOrderId, o.service, o.status, o.closed, o.created_by⟩] := by rw [hD]
  have hDh : D.hosts = st.db.hosts ++
      builtHostRows st.db.nextOrderId st.db.nextHostId o.hosts := by rw [hD]
  have hDv : D.vars = st.db.vars ++
      builtVarRows st.db.nextHostId st.db.nextVarId o.hosts := by rw [hD]
  have fq : QueryFacts D := queryFacts_insert st.db f o hnames
  show ∃ g, get_orders 0 0 true (byId st.db.nextOrderId) D = [g] ∧ _
  rw [get_orders_rec_eq 0 0 (byId st.db.nextOrderId) D fq]
  have hfilter : D.orders.filter (matchRow (byId st.db.nextOrderId))
      = [⟨st.db.nextOrderId, o.service, o.status, o.closed, o.created_by⟩] := by
    rw [List.filter_congr (fun r _ => matchRow_byId st.db.nextOrderId r), hDo,
      List.filter_append]
    have hold : st.db.orders.filter (fun r => r.id == st.db.nextOrderId) = [] := by
      refine List.filter_eq_nil_iff.mpr (fun r hr => ?_)
      have := f.ordersLt r hr
      simp only [beq_iff_eq]
      omega
    rw [hold, List.nil_append]
    simp
  rw [hfilter]
  simp only [List.drop_zero, applyLimit, beq_self_eq_true, if_true,
    List.reverse_singleton, List.map_cons, List.map_nil]
  have hhr : hostRowsFor D st.db.nextOrderId
      = builtHostRows st.db.nextOrderId st.db.nextHostId o.hosts := by
    unfold hostRowsFor
    rw [hDh, List.filter_append]
    have hold : st.db.hosts.filter (fun h => h.order_id == st.db.nextOrderId) = [] := by
      refine List.filter_eq_nil_iff.mpr (fun h hh => ?_)
      have := f.hostsOrderLt h hh
      simp only [beq_iff_eq]
      omega
    rw [hold, List.nil_append, builtHostRows_filter_self]
  have hmat := builtRows_materialize D st.db.nextOrderId st.db.nextHostId
    st.db.nextVarId o.hosts st.db.vars hDv (fun v hv => f.varsHostLt v hv)
  refine ⟨_, rfl, rfl, rfl, rfl, rfl, ?_, ?_, ?_⟩
  · show ((hostRowsFor D st.db.nextOrderId).map (hostOf D)).map (fun h => h.name)
        = o.hosts.map (fun h => h.name)
    rw [hhr, hmat, List.map_map]
    rfl
  · show ((hostRowsFor D st.db.nextOrderId).map (hostOf D)).map (fun h => h.address)
        = o.hosts.map (fun h => h.address)
    rw [hhr, hmat, List.map_map]
    rfl
  · show ((hostRowsFor D st.db.nextOrderId).map (hostOf D)).map (fun h => h.vars)
        = o.hosts.map (fun h => h.vars)
    rw [hhr, hmat, List.map_map]
    rfl

/-! ### The effect of the upsert path (`save_order` and its helpers) -/

theorem save_variable_impl_insert_eq (hid : Nat) (k : String) (v : Value) (st : St)
    (habs : st.db.vars.find? (fun w => w.host_id == hid && w.name == k) = none) :
    save_variable_impl hid k v st
      = ((), { db := { st.db with
                 vars := st.db.vars ++ [⟨st.db.nextVarId, hid, k, v⟩],
                 nextVarId := st.db.nextVarId + 1 },
               lockDepth := st.lockDepth, lockAcqs := st.lockAcqs + 1 }) := by
  unfold save_variable_impl synchronized
  simp only [habs, Nat.add_sub_cancel]

theorem save_variable_impl_update_eq (hid : Nat) (k : String) (v : Value) (st : St)
    (w : VarRow)
    (hfind : st.db.vars.find? (fun w => w.host_id == hid && w.name == k) = some w) :
    save_variable_impl hid k v st
      = ((), { db := { st.db with
                 vars := st.db.vars.map (fun u =>
                   if u.host_id == hid && u.name == k then { u with value := v } else u) },
               lockDepth := st.lockDepth, lockAcqs := st.lockAcqs + 1 }) := by
  unfold save_variable_impl synchronized
  simp only [hfind, Nat.add_sub_cancel]

/-- `__save_variable` touches only the variable table and its counter. -/
theorem save_variable_impl_frame (hid : Nat) (k : String) (v : Value) (st : St) :
    ((save_variable_impl hid k v st).2).db.orders = st.db.orders ∧
    ((save_variable_impl hid k v st).2).db.hosts = st.db.hosts ∧
    ((save_variable_impl hid k v st).2).lockDepth = st.lockDepth ∧
    ((save_variable_impl hid k v st).2).lockAcqs = st.lockAcqs + 1 := by
  cases hfind : st.db.vars.find? (fun w => w.host_id == hid && w.name == k) with
  | none =>
    rw [save_variable_impl_insert_eq hid k v st hfind]
    exact ⟨rfl, rfl, rfl, rfl⟩
  | some w =>
    rw [save_variable_impl_update_eq hid k v st w hfind]
    exact ⟨rfl, rfl, rfl, rfl⟩

theorem saveVarsFold_frame (hid : Nat) (kvs : List (String × Value)) (st : St) :
    ((kvs.foldl (fun acc kv => (save_variable_impl hid kv.1 kv.2 acc).2) st)).db.orders
        = st.db.orders ∧
    ((kvs.foldl (fun acc kv => (save_variable_impl hid kv.1 kv.2 acc).2) st)).db.hosts
        = st.db.hosts ∧
    ((kvs.foldl (fun acc kv => (save_variable_impl hid kv.1 kv.2 acc).2) st)).lockDepth
        = st.lockDepth ∧
    ((kvs.foldl (fun acc kv => (save_variable_impl hid kv.1 kv.2 acc).2) st)).lockAcqs
        = st.lockAcqs + kvs.length := by
  induction kvs generalizing st with
  | nil => exact ⟨rfl, rfl, rfl, by simp⟩
  | cons kv t ih =>
    rw [List.foldl_cons]
    obtain ⟨h1, h2, h3, h4⟩ := save_variable_impl_frame hid kv.1 kv.2 st
    obtain ⟨g1, g2, g3, g4⟩ := ih ((save_variable_impl hid kv.1 kv.2 st).2)
    refine ⟨g1.trans h1, g2.trans h2, g3.trans h3, ?_⟩
    rw [g4, h4]
    simp only [List.length_cons]
    omega

theorem save_host_impl_clean_eq (oid : Nat) (h : Host) (st : St) (hd : h.dirty = false) :
    save_host_impl oid h st = ((h, none), { st with lockAcqs := st.lockAcqs + 1 }) := by
  unfold save_host_impl synchronized
  simp [hd]

theorem save_host_impl_insert (oid : Nat) (h : Host) (st : St) (hd : h.dirty = true)
    (habs : st.db.hosts.find? (fun x => x.order_id == oid && x.address == h.address)
      = none) :
    (save_host_impl oid h st).1 = ({ h with dirty := false }, some st.db.nextHostId) ∧
    ((save_host_impl oid h st).2).db.hosts
      = st.db.hosts ++ [⟨st.db.nextHostId, oid, h.address, h.name⟩] ∧
    ((save_host_impl oid h st).2).db.orders = st.db.orders ∧
    ((save_host_impl oid h st).2).lockDepth = st.lockDepth ∧
    ((save_host_impl oid h st).2).lockAcqs = st.lockAcqs + 1 + h.vars.length := by
  set S0 : St :=
    { db := { st.db with
        hosts := st.db.hosts ++ [⟨st.db.nextHostId, oid, h.address, h.name⟩],
        nextHostId := st.db.nextHostId + 1 },
      lockDepth := st.lockDepth + 1, lockAcqs := st.lockAcqs + 1 } with hS0
  have hfr := saveVarsFold_frame st.db.nextHostId h.vars S0
  set F : St := h.vars.foldl
    (fun acc kv => (save_variable_impl st.db.nextHostId kv.1 kv.2 acc).2) S0 with hF
  have hrun : (save_host_impl oid h st).2 = { F with lockDepth := F.lockDepth - 1 } := by
    rw [hF, hS0]
    unfold save_host_impl synchronized
    simp only [hd, Bool.not_true, Bool.false_eq_true, if_false, habs]
  have hfst : (save_host_impl oid h st).1
      = ({ h with dirty := false }, some st.db.nextHostId) := by
    unfold save_host_impl synchronized
    simp only [hd, Bool.not_true, Bool.false_eq_true, if_false, habs]
  have hS0db : S0.db.hosts = st.db.hosts ++ [⟨st.db.nextHostId, oid, h.address, h.name⟩] := by
    rw [hS0]
  have hS0or : S0.db.orders = st.db.orders := by rw [hS0]
  have hS0d : S0.lockDepth = st.lockDepth + 1 := by rw [hS0]
  have hS0a : S0.lockAcqs = st.lockAcqs + 1 := by rw [hS0]
  refine ⟨hfst, ?_, ?_, ?_, ?_⟩
  · rw [hrun]
    exact hfr.2.1.trans hS0db
  · rw [hrun]
    exact hfr.1.trans hS0or
  · rw [hrun]
    simp only [hfr.2.2.1, hS0d]
    try omega
  · rw [hrun]
    simp only [hfr.2.2.2, hS0a]
    try omega

theorem save_host_impl_update (oid : Nat) (h : Host) (st : St) (hd : h.dirty = true)
    (w : HostRow)
    (hfind : st.db.hosts.find? (fun x => x.order_id == oid && x.address == h.address)
      = some w) :
    (save_host_impl oid h st).1 = ({ h with dirty := false }, some w.id) ∧
    ((save_host_impl oid h st).2).db.hosts
      = st.db.hosts.map (fun x =>
          if x.order_id == oid && x.address == h.address then { x with name := h.name }
          else x) ∧
    ((save_host_impl oid h st).2).db.orders = st.db.orders ∧
    ((save_host_impl oid h st).2).lockDepth = st.lockDepth ∧
    ((save_host_impl oid h st).2).lockAcqs = st.lockAcqs + 1 + h.vars.length := by
  set S0 : St :=
    { db := { st.db with
        hosts := st.db.hosts.map (fun x =>
          if x.order_id == oid && x.address == h.address then { x with name := h.name }
          else x) },
      lockDepth := st.lockDepth + 1, lockAcqs := st.lockAcqs + 1 } with hS0
  have hfr := saveVarsFold_frame w.id h.vars S0
  set F : St := h.vars.foldl
    (fun acc kv => (save_variable_impl w.id kv.1 kv.2 acc).2) S0 with hF
  have hrun : (save_host_impl oid h st).2 = { F with lockDepth := F.lockDepth - 1 } := by
    rw [hF, hS0]
    unfold save_host_impl synchronized
    simp only [hd, Bool.not_true, Bool.false_eq_true, if_false, hfind]
  have hfst : (save_host_impl oid h st).1 = ({ h with dirty := false }, some w.id) := by
    unfold save_host_impl synchronized
    simp only [hd, Bool.not_true, Bool.false_eq_true, if_false, hfind]
  have hS0db : S0.db.hosts = st.db.hosts.map (fun x =>
      if x.order_id == oid && x.address == h.address then { x with name := h.name }
      else x) := by rw [hS0]
  have hS0or : S0.db.orders = st.db.orders := by rw [hS0]
  have hS0d : S0.lockDepth = st.lockDepth + 1 := by rw [hS0]
  have hS0a : S0.lockAcqs = st.lockAcqs + 1 := by rw [hS0]
  refine ⟨hfst, ?_, ?_, ?_, ?_⟩
  · rw [hrun]
    exact hfr.2.1.trans hS0db
  · rw [hrun]
    exact hfr.1.trans hS0or
  · rw [hrun]
    simp only [hfr.2.2.1, hS0d]
    try omega
  · rw [hrun]
    simp only [hfr.2.2.2, hS0a]
    try omega

/-! ### Lock accounting: which operations run under `synchronized` -/

theorem install_lock (st : St) :
    (install st).2 = { st with lockAcqs := st.lockAcqs + 1 } := rfl

theorem uninstall_lock (st : St) :
    ((uninstall st).2).lockDepth = st.lockDepth ∧
    ((uninstall st).2).lockAcqs = st.lockAcqs + 1 := ⟨rfl, rfl⟩

theorem clear_database_lock (st : St) :
    ((clear_database st).2).lockDepth = st.lockDepth ∧
    ((clear_database st).2).lockAcqs = st.lockAcqs + 1 := ⟨rfl, rfl⟩

theorem add_variable_impl_lock (hid : Nat) (k : String) (v : Value) (st : St) :
    ((add_variable_impl hid k v st).2).lockDepth = st.lockDepth ∧
    ((add_variable_impl hid k v st).2).lockAcqs = st.lockAcqs + 1 := ⟨rfl, rfl⟩

theorem save_variable_impl_lock (hid : Nat) (k : String) (v : Value) (st : St) :
    ((save_variable_impl hid k v st).2).lockDepth = st.lockDepth ∧
    ((save_variable_impl hid k v st).2).lockAcqs = st.lockAcqs + 1 :=
  ⟨(save_variable_impl_frame hid k v st).2.2.1, (save_variable_impl_frame hid k v st).2.2.2⟩

theorem add_host_impl_lock (oid : Nat) (h : Host) (st : St) :
    ((add_host_impl oid h st).2).lockDepth = st.lockDepth ∧
    st.lockAcqs < ((add_host_impl oid h st).2).lockAcqs := by
  cases hd : h.dirty
  · rw [add_host_impl_clean_eq oid h st hd]
    exact ⟨rfl, Nat.lt_succ_self _⟩
  · rw [add_host_impl_dirty_eq oid h st hd]
    refine ⟨rfl, ?_⟩
    simp only []
    omega

theorem save_host_impl_lock (oid : Nat) (h : Host) (st : St) :
    ((save_host_impl oid h st).2).lockDepth = st.lockDepth ∧
    st.lockAcqs < ((save_host_impl oid h st).2).lockAcqs := by
  cases hd : h.dirty
  · rw [save_host_impl_clean_eq oid h st hd]
    exact ⟨rfl, Nat.lt_succ_self _⟩
  · cases hfind : st.db.hosts.find? (fun x => x.order_id == oid && x.address == h.address) with
    | none =>
      obtain ⟨_, _, _, h4, h5⟩ := save_host_impl_insert oid h st hd hfind
      exact ⟨h4, by omega⟩
    | some w =>
      obtain ⟨_, _, _, h4, h5⟩ := save_host_impl_update oid h st hd w hfind
      exact ⟨h4, by omega⟩

theorem addHostsFold_lock (oid : Nat) (hs : List Host) (acc : List Host) (st : St) :
    ((hs.foldl (addHostStep oid) (acc, st)).2).lockDepth = st.lockDepth ∧
    st.lockAcqs ≤ ((hs.foldl (addHostStep oid) (acc, st)).2).lockAcqs := by
  induction hs generalizing acc st with
  | nil => exact ⟨rfl, Nat.le_refl _⟩
  | cons h t ih =>
    rw [List.foldl_cons,
      show addHostStep oid (acc, st) h
        = (acc ++ [(add_host_impl oid h st).1.1], (add_host_impl oid h st).2) from rfl]
    obtain ⟨g1, g2⟩ := ih (acc ++ [(add_host_impl oid h st).1.1]) (add_host_impl oid h st).2
    obtain ⟨k1, k2⟩ := add_host_impl_lock oid h st
    exact ⟨g1.trans k1, by omega⟩

theorem saveHostsFold_lock (oid : Nat) (hs : List Host) (acc : List Host) (st : St) :
    ((hs.foldl (saveHostStep oid) (acc, st)).2).lockDepth = st.lockDepth ∧
    st.lockAcqs ≤ ((hs.foldl (saveHostStep oid) (acc, st)).2).lockAcqs := by
  induction hs generalizing acc st with
  | nil => exact ⟨rfl, Nat.le_refl _⟩
  | cons h t ih =>
    rw [List.foldl_cons,
      show saveHostStep oid (acc, st) h
        = (acc ++ [(save_host_impl oid h st).1.1], (save_host_impl oid h st).2) from rfl]
    obtain ⟨g1, g2⟩ := ih (acc ++ [(save_host_impl oid h st).1.1]) (save_host_impl oid h st).2
    obtain ⟨k1, k2⟩ := save_host_impl_lock oid h st
    exact ⟨g1.trans k1, by omega⟩

theorem add_order_impl_lock (o : Option Order) (rec : Bool) (st : St) :
    ((add_order_impl o rec st).2).lockDepth = st.lockDepth ∧
    st.lockAcqs < ((add_order_impl o rec st).2).lockAcqs := by
  cases o with
  | none => exact ⟨rfl, Nat.lt_succ_self _⟩
  | some order =>
    cases rec with
    | false => exact ⟨rfl, Nat.lt_succ_self _⟩
    | true =>
      set S1 : St :=
        { db := { st.db with
            orders := st.db.orders ++
              [⟨st.db.nextOrderId, order.service, order.status, order.closed,
                order.created_by⟩],
            nextOrderId := st.db.nextOrderId + 1 },
          lockDepth := st.lockDepth + 1, lockAcqs := st.lockAcqs + 1 } with hS1
      set q := order.hosts.foldl (addHostStep st.db.nextOrderId) ([], S1) with hq
      have hrun : (add_order_impl (some order) true st).2
          = { q.2 with lockDepth := q.2.lockDepth - 1 } := by
        rw [hq, hS1]
        unfold add_order_impl synchronized
        simp only [Bool.not_true, Bool.false_eq_true, if_false]
      obtain ⟨g1, g2⟩ := addHostsFold_lock st.db.nextOrderId order.hosts [] S1
      rw [← hq] at g1 g2
      have hd1 : S1.lockDepth = st.lockDepth + 1 := by rw [hS1]
      have ha1 : S1.lockAcqs = st.lockAcqs + 1 := by rw [hS1]
      constructor
      · rw [hrun]
        show q.2.lockDepth - 1 = st.lockDepth
        rw [g1, hd1]
        omega
      · rw [hrun]
        show st.lockAcqs < q.2.lockAcqs
        rw [ha1] at g2
        omega

theorem save_order_impl_lock (o : Option Order) (rec : Bool) (st : St) :
    ((save_order_impl o rec st).2).lockDepth = st.lockDepth ∧
    st.lockAcqs < ((save_order_impl o rec st).2).lockAcqs := by
  cases o with
  | none => exact ⟨rfl, Nat.lt_succ_self _⟩
  | some order =>
    unfold save_order_impl synchronized
    simp only []
    set S1 : St := { st with lockDepth := st.lockDepth + 1, lockAcqs := st.lockAcqs + 1 }
      with hS1
    have hS1d : S1.lockDepth = st.lockDepth + 1 := by rw [hS1]
    have hS1a : S1.lockAcqs = st.lockAcqs + 1 := by rw [hS1]
    have hfallback : ∀ st0 : St,
        ((match add_order_impl (some order) rec st0 with
          | (Except.ok o', st') => (Except.ok o', st')
          | (Except.error e, st') => (Except.error e, { st' with db := st0.db })).2.lockDepth
            = st0.lockDepth) ∧
        (st0.lockAcqs <
          (match add_order_impl (some order) rec st0 with
          | (Except.ok o', st') => (Except.ok o', st')
          | (Except.error e, st') => (Except.error e, { st' with db := st0.db })).2.lockAcqs) := by
      intro st0
      obtain ⟨k1, k2⟩ := add_order_impl_lock (some order) rec st0
      cases hres : add_order_impl (some order) rec st0 with
      | mk r st' =>
        cases r with
        | ok o' =>
          simp only []
          rw [hres] at k1 k2
          exact ⟨k1, k2⟩
        | error e =>
          simp only []
          rw [hres] at k1 k2
          exact ⟨k1, k2⟩
    have hfb : (match add_order_impl (some order) rec S1 with
          | (Except.ok o', st') => (Except.ok o', st')
          | (Except.error e, st') => (Except.error e, { st' with db := st.db })).2.lockDepth
            = S1.lockDepth ∧
        S1.lockAcqs ≤ (match add_order_impl (some order) rec S1 with
          | (Except.ok o', st') => (Except.ok o', st')
          | (Except.error e, st') => (Except.error e, { st' with db := st.db })).2.lockAcqs := by
      obtain ⟨k1, k2⟩ := add_order_impl_lock (some order) rec S1
      cases hres : add_order_impl (some order) rec S1 with
      | mk r st' =>
        rw [hres] at k1 k2
        cases r with
        | ok o' => exact ⟨k1, Nat.le_of_lt k2⟩
        | error e => exact ⟨k1, Nat.le_of_lt k2⟩
    rcases ho : order.id with _ | i
    · simp only [ho]
      obtain ⟨k1, k2⟩ := hfb
      constructor
      · rw [k1, hS1d]
        omega
      · rw [hS1a] at k2
        omega
    · simp only [ho]
      by_cases hi : i == 0
      · simp only [hi, if_true]
        obtain ⟨k1, k2⟩ := hfb
        constructor
        · rw [k1, hS1d]
          omega
        · rw [hS1a] at k2
          omega
      · simp only [hi, Bool.false_eq_true, if_false]
        cases hg : get_order { id := some [i], service := none, status := none } st.db with
        | error e =>
          simp only []
          constructor
          · show S1.lockDepth - 1 = st.lockDepth
            rw [hS1d]
            omega
          · show st.lockAcqs < S1.lockAcqs
            rw [hS1a]
            omega
        | ok res =>
          cases res with
          | none =>
            simp only []
            obtain ⟨k1, k2⟩ := hfb
            constructor
            · rw [k1, hS1d]
              omega
            · rw [hS1a] at k2
              omega
          | some x =>
            simp only []
            cases rec with
            | false =>
              simp only [Bool.not_false, if_true]
              constructor
              · show S1.lockDepth - 1 = st.lockDepth
                rw [hS1d]
                omega
              · show st.lockAcqs < S1.lockAcqs
                rw [hS1a]
                omega
            | true =>
              simp only [Bool.not_true, Bool.false_eq_true, if_false]
              set T : St :=
                { S1 with db := { S1.db with
                    orders := S1.db.orders.map (fun r =>
                      if r.id == (some i : Option Nat).getD 0 then
                        { r with service := order.service, status := order.status,
                                 closed := order.closed, created_by := order.created_by }
                      else r) } } with hT
              obtain ⟨g1, g2⟩ := saveHostsFold_lock ((some i : Option Nat).getD 0)
                order.hosts [] T
              have hTd : T.lockDepth = S1.lockDepth := by rw [hT]
              have hTa : T.lockAcqs = S1.lockAcqs := by rw [hT]
              constructor
              · rw [g1, hTd, hS1d]
                omega
              · rw [hTa, hS1a] at g2
                omega

theorem close_open_orders_lock (st : St) :
    (close_open_orders st).lockDepth = st.lockDepth ∧
    (close_open_orders st).lockAcqs = st.lockAcqs := ⟨rfl, rfl⟩

/-- C9 (amended): the mutating operations install, uninstall, clear_database,
and the internal order/host/variable insert and update helpers each acquire
the process-wide reentrant lock (the cumulative acquisition counter grows)
and restore the reentrant depth on exit — nested internal calls from the same
thread stack acquisitions on the counter without ever leaving the lock held.
`close_open_orders`, although it updates the order table, performs no lock
acquisition at all; the read-only queries (`get_orders`, `get_order`,
`count_orders`) are functions of the database alone and never touch the
lock state. -/
theorem c9_lock_discipline (st : St) (hid oid : Nat) (k : String) (v : Value)
    (h : Host) (o : Option Order) (rec : Bool) :
    ((install st).2.lockAcqs = st.lockAcqs + 1 ∧
      (install st).2.lockDepth = st.lockDepth) ∧
    ((uninstall st).2.lockAcqs = st.lockAcqs + 1 ∧
      (uninstall st).2.lockDepth = st.lockDepth) ∧
    ((clear_database st).2.lockAcqs = st.lockAcqs + 1 ∧
      (clear_database st).2.lockDepth = st.lockDepth) ∧
    ((add_variable_impl hid k v st).2.lockAcqs = st.lockAcqs + 1 ∧
      (add_variable_impl hid k v st).2.lockDepth = st.lockDepth) ∧
    ((save_variable_impl hid k v st).2.lockAcqs = st.lockAcqs + 1 ∧
      (save_variable_impl hid k v st).2.lockDepth = st.lockDepth) ∧
    (st.lockAcqs < (add_host_impl oid h st).2.lockAcqs ∧
      (add_host_impl oid h st).2.lockDepth = st.lockDepth) ∧
    (st.lockAcqs < (save_host_impl oid h st).2.lockAcqs ∧
      (save_host_impl oid h st).2.lockDepth = st.lockDepth) ∧
    (st.lockAcqs < (add_order_impl o rec st).2.lockAcqs ∧
      (add_order_impl o rec st).2.lockDepth = st.lockDepth) ∧
    (st.lockAcqs < (save_order_impl o rec st).2.lockAcqs ∧
      (save_order_impl o rec st).2.lockDepth = st.lockDepth) ∧
    ((close_open_orders st).lockAcqs = st.lockAcqs ∧
      (close_open_orders st).lockDepth = st.lockDepth) :=
  ⟨⟨rfl, rfl⟩, ⟨(uninstall_lock st).2, (uninstall_lock st).1⟩,
   ⟨(clear_database_lock st).2, (clear_database_lock st).1⟩,
   ⟨(add_variable_impl_lock hid k v st).2, (add_variable_impl_lock hid k v st).1⟩,
   ⟨(save_variable_impl_lock hid k v st).2, (save_variable_impl_lock hid k v st).1⟩,
   ⟨(add_host_impl_lock oid h st).2, (add_host_impl_lock oid h st).1⟩,
   ⟨(save_host_impl_lock oid h st).2, (save_host_impl_lock oid h st).1⟩,
   ⟨(add_order_impl_lock o rec st).2, (add_order_impl_lock o rec st).1⟩,
   ⟨(save_order_impl_lock o rec st).2, (save_order_impl_lock o rec st).1⟩,
   ⟨(close_open_orders_lock st).2, (close_open_orders_lock st).1⟩⟩

/-- A small concrete state: one open order, lock never taken. -/
def lockSt0 : St :=
  { db := { orders := [⟨1, "s", "open", none, "u"⟩], hosts := [], vars := [],
            nextOrderId := 2, nextHostId := 1, nextVarId := 1, now := 7 },
    lockDepth := 0, lockAcqs := 0 }

/-- C9 counterexample: `close_open_orders` is a mutating operation — on
`lockSt0` it changes the stored order table — yet it performs no lock
acquisition, contradicting the claim that every mutating operation, including
`close_open_orders`, acquires the process-wide lock before touching
storage. -/
theorem c9_counterexample :
    (close_open_orders lockSt0).db ≠ lockSt0.db ∧
    (close_open_orders lockSt0).lockAcqs = lockSt0.lockAcqs := by
  constructor
  · decide
  · rfl

/-- C4: each `add_order`/`save_order` call is one transaction: on any
exception during the batch, every storage write performed in the call is
rolled back — the final database equals the initial one, so in particular no
order row and no host row of any order id assigned during the call (ids at or
above the auto-increment counter) remains — and the original exception is the
one re-raised. -/
theorem c4_transaction_rollback (orders : List (Option Order)) (rec : Bool) (st : St)
    (hwf : st.db.wfb = true) :
    (∀ e os' st', add_order orders rec st = ((Except.error e, os'), st') →
       st'.db = st.db ∧
       ∀ i, st.db.nextOrderId ≤ i →
         (∀ r ∈ st'.db.orders, r.id ≠ i) ∧ ∀ hr ∈ st'.db.hosts, hr.order_id ≠ i) ∧
    (∀ e os' st', save_order orders rec st = ((Except.error e, os'), st') →
       st'.db = st.db ∧
       ∀ i, st.db.nextOrderId ≤ i →
         (∀ r ∈ st'.db.orders, r.id ≠ i) ∧ ∀ hr ∈ st'.db.hosts, hr.order_id ≠ i) := by
  have f := DB.wfb_facts st.db hwf
  constructor
  · intro e os' st' heq
    unfold add_order at heq
    rcases hloop : add_order_loop rec orders st with ⟨⟨r, os⟩, st2⟩
    rw [hloop] at heq
    cases r with
    | ok u => simp at heq
    | error e2 =>
      simp only [Prod.mk.injEq] at heq
      obtain ⟨⟨he, hos⟩, hst⟩ := heq
      subst hst
      refine ⟨rfl, ?_⟩
      intro i hi
      constructor
      · intro r hr
        have := f.ordersLt r hr
        omega
      · intro hr hhr
        have := f.hostsOrderLt hr hhr
        omega
  · intro e os' st' heq
    unfold save_order at heq
    rcases hloop : save_order_loop rec orders st with ⟨⟨r, os⟩, st2⟩
    rw [hloop] at heq
    cases r with
    | ok u => simp at heq
    | error e2 =>
      simp only [Prod.mk.injEq] at heq
      obtain ⟨⟨he, hos⟩, hst⟩ := heq
      subst hst
      refine ⟨rfl, ?_⟩
      intro i hi
      constructor
      · intro r hr
        have := f.ordersLt r hr
        omega
      · intro hr hhr
        have := f.hostsOrderLt hr hhr
        omega

/-- Witness for C4: on `lockSt0`, the batch `[none]` raises
`AttributeError("order argument must not be None")` and the rollback leaves
the database exactly as it was. -/
theorem c4_transaction_rollback_witness :
    lockSt0.db.wfb = true ∧
    (add_order [none] true lockSt0).2.db = lockSt0.db :=
  ⟨by decide,
   ((c4_transaction_rollback [none] true lockSt0 (by decide)).1
      (DBErr.attributeError "order argument must not be None") [none]
      (add_order [none] true lockSt0).2 rfl).1⟩

/-- Running the host loop of `__add_order` over an arbitrary mix of dirty and
clean hosts: each dirty host comes back with its dirty flag cleared, each
clean host unchanged, and the order auto-increment counter is untouched. -/
theorem addHostsFold_shape (oid : Nat) (hs : List Host) (acc : List Host) (st : St) :
    (hs.foldl (addHostStep oid) (acc, st)).1
        = acc ++ hs.map (fun h => if h.dirty then { h with dirty := false } else h) ∧
    ((hs.foldl (addHostStep oid) (acc, st)).2).db.nextOrderId = st.db.nextOrderId := by
  induction hs generalizing acc st with
  | nil => exact ⟨by simp, rfl⟩
  | cons h t ih =>
    rw [List.foldl_cons]
    have hstep : addHostStep oid (acc, st) h
        = (acc ++ [(add_host_impl oid h st).1.1], (add_host_impl oid h st).2) := rfl
    rw [hstep]
    obtain ⟨g1, g2⟩ := ih (acc ++ [(add_host_impl oid h st).1.1]) (add_host_impl oid h st).2
    have h1 : (add_host_impl oid h st).1.1
        = if h.dirty then { h with dirty := false } else h := by
      cases hd : h.dirty
      · rw [add_host_impl_clean_eq oid h st hd]
        simp
      · rw [add_host_impl_dirty_eq oid h st hd]
        simp
    have h2 : ((add_host_impl oid h st).2).db.nextOrderId = st.db.nextOrderId := by
      cases hd : h.dirty
      · rw [add_host_impl_clean_eq oid h st hd]
      · rw [add_host_impl_dirty_eq oid h st hd]
    refine ⟨?_, g2.trans h2⟩
    rw [g1, h1]
    simp

/-- `__add_order` on a recursive insert, without any dirtiness hypothesis:
the returned in-memory order carries the freshly assigned id and its dirty
hosts come back cleaned; the order counter advances by one. -/
theorem add_order_impl_true_shape (o : Order) (st : St) :
    (add_order_impl (some o) true st).1
        = Except.ok { o with
            id := some st.db.nextOrderId,
            hosts := o.hosts.map
              (fun h => if h.dirty then { h with dirty := false } else h) } ∧
    ((add_order_impl (some o) true st).2).db.nextOrderId = st.db.nextOrderId + 1 := by
  unfold add_order_impl synchronized
  simp only [Bool.not_true, Bool.false_eq_true, if_false]
  constructor
  · rw [(addHostsFold_shape _ _ _ _).1]
    simp
  · rw [(addHostsFold_shape _ _ _ _).2]

/-- One step of the batch loop when the insert of the head succeeds. -/
theorem add_order_loop_ok_step (recursive : Bool) (o : Option Order) (o' : Order)
    (rest : List (Option Order)) (st st2 : St)
    (h : add_order_impl o recursive st = (Except.ok o', st2)) :
    add_order_loop recursive (o :: rest) st
      = (((add_order_loop recursive rest st2).1.1,
          some o' :: (add_order_loop recursive rest st2).1.2),
         (add_order_loop recursive rest st2).2) := by
  simp only [add_order_loop, h]

/-- The batch loop of `add_order` on a batch whose first `None` entry follows
the genuine orders of `os1`: it stops at the `None` with the attribute error,
having processed every order of `os1` — each one now carrying a fresh id not
below the initial counter, with every host cleaned. -/
theorem add_order_loop_shape (os1 : List Order) (rest : List (Option Order)) (st : St) :
    ∃ (os1' : List Order) (st' : St),
      add_order_loop true (os1.map some ++ none :: rest) st
        = ((Except.error (DBErr.attributeError "order argument must not be None"),
            os1'.map some ++ none :: rest), st') ∧
      os1'.length = os1.length ∧
      (∀ o' ∈ os1', (∃ n, o'.id = some n ∧ st.db.nextOrderId ≤ n) ∧
        ∀ h ∈ o'.hosts, h.dirty = false) ∧
      st.db.nextOrderId ≤ st'.db.nextOrderId := by
  induction os1 generalizing st with
  | nil =>
    refine ⟨[], { st with lockAcqs := st.lockAcqs + 1 }, rfl, rfl, ?_, Nat.le_refl _⟩
    intro o' ho'
    exact absurd ho' (by simp)
  | cons o t ih =>
    obtain ⟨g1, g2⟩ := add_order_impl_true_shape o st
    have hpe : add_order_impl (some o) true st
        = (Except.ok { o with
            id := some st.db.nextOrderId,
            hosts := o.hosts.map
              (fun h => if h.dirty then { h with dirty := false } else h) },
           (add_order_impl (some o) true st).2) := by
      rw [← g1]
    obtain ⟨os1', st', heq, hlen, hprops, hmono⟩ := ih (add_order_impl (some o) true st).2
    refine ⟨{ o with
        id := some st.db.nextOrderId,
        hosts := o.hosts.map
          (fun h => if h.dirty then { h with dirty := false } else h) } :: os1',
      st', ?_, ?_, ?_, ?_⟩
    · rw [List.map_cons, List.cons_append,
        add_order_loop_ok_step true (some o) _ _ st _ hpe, heq]
      simp
    · simp [hlen]
    · intro o' ho'
      rcases List.mem_cons.mp ho' with ho' | ho'
      · subst ho'
        refine ⟨⟨st.db.nextOrderId, rfl, Nat.le_refl _⟩, ?_⟩
        intro h hh
        obtain ⟨h0, hh0, hmap⟩ := List.mem_map.mp hh
        subst hmap
        cases hd : h0.dirty
        · simp [hd]
        · simp [hd]
      · obtain ⟨⟨n, hn, hge⟩, hclean⟩ := hprops o' ho'
        exact ⟨⟨n, hn, by omega⟩, hclean⟩
    · omega

/-- C10: the transactional rollback of `add_order` does not extend to the
in-memory batch: when the call raises partway through (here at a `None` entry
placed after the genuine orders of `os1`), the storage is restored to the
pre-call database, yet every already-processed in-memory order keeps the id
assigned to it during the call — an id that names no surviving order row —
and its hosts keep their cleared dirty flags.  Only storage is atomic; the
caller's object graph is not restored. -/
theorem c10_inmemory_not_rolled_back (st : St) (os1 : List Order)
    (rest : List (Option Order)) (hwf : st.db.wfb = true) :
    ∃ (os1' : List Order) (st' : St),
      add_order (os1.map some ++ none :: rest) true st
        = ((Except.error (DBErr.attributeError "order argument must not be None"),
            os1'.map some ++ none :: rest), st') ∧
      st'.db = st.db ∧
      os1'.length = os1.length ∧
      ∀ o' ∈ os1',
        (∃ n, o'.id = some n ∧ ∀ r ∈ st'.db.orders, r.id ≠ n) ∧
        ∀ h ∈ o'.hosts, h.dirty = false := by
  have f := DB.wfb_facts st.db hwf
  obtain ⟨os1', st2, heq, hlen, hprops, hmono⟩ := add_order_loop_shape os1 rest st
  refine ⟨os1', { st2 with db := st.db }, ?_, rfl, hlen, ?_⟩
  · unfold add_order
    rw [heq]
  · intro o' ho'
    obtain ⟨⟨n, hn, hge⟩, hclean⟩ := hprops o' ho'
    refine ⟨⟨n, hn, ?_⟩, hclean⟩
    intro r hr
    have := f.ordersLt r hr
    omega

/-- A concrete order with one dirty host, for the C10 witness. -/
def ord10 : Order :=
  { id := none, service := "svc", status := "new", closed := none,
    created_by := "me",
    hosts := [{ name := "h", address := "a", vars := [], dirty := true }] }

/-- Witness for C10 at a concrete input: the batch `[ord10, none]` on
`lockSt0`. -/
theorem c10_inmemory_not_rolled_back_witness :
    lockSt0.db.wfb = true ∧
    ∃ (os1' : List Order) (st' : St),
      add_order ([ord10].map some ++ none :: []) true lockSt0
        = ((Except.error (DBErr.attributeError "order argument must not be None"),
            os1'.map some ++ none :: []), st') ∧
      st'.db = lockSt0.db ∧
      os1'.length = [ord10].length ∧
      ∀ o' ∈ os1',
        (∃ n, o'.id = some n ∧ ∀ r ∈ st'.db.orders, r.id ≠ n) ∧
        ∀ h ∈ o'.hosts, h.dirty = false :=
  ⟨by decide, c10_inmemory_not_rolled_back lockSt0 [ord10] [] (by decide)⟩

/-- C6: the dirty-flag invariant across both the insert and the save path.
When `host.dirty` is false, `__add_host` and `__save_host` write nothing:
the returned host is the unchanged input and the database — host table and
variable table included — is untouched.  When `host.dirty` is true, each
path performs its write (`__add_host` appends the host row; `__save_host`
either appends it or updates the rows matching the `(order_id, address)`
natural key) and the returned host is marked clean (`untouch()`), so a host
row is written to storage only while the flag is held. -/
theorem c6_dirty_flag (oid : Nat) (h : Host) (st : St) :
    (h.dirty = false →
       (add_host_impl oid h st).1 = (h, none) ∧
       ((add_host_impl oid h st).2).db = st.db ∧
       (save_host_impl oid h st).1 = (h, none) ∧
       ((save_host_impl oid h st).2).db = st.db) ∧
    (h.dirty = true →
       ((add_host_impl oid h st).1.1).dirty = false ∧
       ((add_host_impl oid h st).2).db.hosts
         = st.db.hosts ++ [⟨st.db.nextHostId, oid, h.address, h.name⟩] ∧
       ((save_host_impl oid h st).1.1).dirty = false ∧
       (((save_host_impl oid h st).2).db.hosts
           = st.db.hosts ++ [⟨st.db.nextHostId, oid, h.address, h.name⟩] ∨
        ∃ w, st.db.hosts.find?
            (fun x => x.order_id == oid && x.address == h.address) = some w ∧
          ((save_host_impl oid h st).2).db.hosts
            = st.db.hosts.map (fun x =>
                if x.order_id == oid && x.address == h.address then
                  { x with name := h.name }
                else x))) := by
  constructor
  · intro hd
    rw [add_host_impl_clean_eq oid h st hd, save_host_impl_clean_eq oid h st hd]
    exact ⟨rfl, rfl, rfl, rfl⟩
  · intro hd
    refine ⟨?_, ?_, ?_, ?_⟩
    · rw [add_host_impl_dirty_eq oid h st hd]
    · rw [add_host_impl_dirty_eq oid h st hd]
    · cases hfind : st.db.hosts.find?
          (fun x => x.order_id == oid && x.address == h.address) with
      | none =>
        rw [(save_host_impl_insert oid h st hd hfind).1]
      | some w =>
        rw [(save_host_impl_update oid h st hd w hfind).1]
    · cases hfind : st.db.hosts.find?
          (fun x => x.order_id == oid && x.address == h.address) with
      | none => exact Or.inl (save_host_impl_insert oid h st hd hfind).2.1
      | some w =>
        exact Or.inr ⟨w, rfl, (save_host_impl_update oid h st hd w hfind).2.1⟩

/-- A concrete clean host and a concrete dirty host for the C6 witness. -/
def hostClean : Host := { name := "hc", address := "ac", vars := [], dirty := false }

def hostDirty : Host :=
  { name := "hd", address := "ad", vars := [("k", "v")], dirty := true }

/-- Witness for C6 at concrete inputs: on `lockSt0`, saving the clean host
writes nothing, and adding the dirty host returns it marked clean. -/
theorem c6_dirty_flag_witness :
    (((save_host_impl 1 hostClean lockSt0).2).db = lockSt0.db) ∧
    (((add_host_impl 1 hostDirty lockSt0).1.1).dirty = false) :=
  ⟨((c6_dirty_flag 1 hostClean lockSt0).1 rfl).2.2.2,
   ((c6_dirty_flag 1 hostDirty lockSt0).2 rfl).1⟩

/-- C5: `get_order` enforces exactly-one: for every criteria set, it returns
`None` when no stored order matches, the unique matching order when exactly
one does, and raises `Too many results` for two or more matches. -/
theorem c5_get_order_exactly_one (c : Criteria) (db : DB) (f : QueryFacts db) :
    (db.orders.filter (matchRow c) = [] → get_order c db = Except.ok none) ∧
    (∀ m, db.orders.filter (matchRow c) = [m] →
       get_order c db = Except.ok (some (orderOf db m))) ∧
    (2 ≤ (db.orders.filter (matchRow c)).length →
       get_order c db = Except.error DBErr.tooManyResults) := by
  have hq := get_orders_rec_eq 0 2 c db f
  refine ⟨?_, ?_, ?_⟩
  · intro hnil
    unfold get_order
    rw [hq, hnil]
    rfl
  · intro m hone
    unfold get_order
    rw [hq, hone]
    rfl
  · intro h2
    unfold get_order
    rw [hq]
    rcases hms : db.orders.filter (matchRow c) with _ | ⟨m1, _ | ⟨m2, rest⟩⟩
    · rw [hms] at h2
      simp at h2
    · rw [hms] at h2
      simp at h2
    · rfl

/-- Witness for C5 at a concrete input: on the single-order database of
`lockSt0`, the criteria `id=[1]` match exactly that order. -/
theorem c5_get_order_exactly_one_witness :
    get_order { id := some [1], service := none, status := none } lockSt0.db
      = Except.ok (some (orderOf lockSt0.db ⟨1, "s", "open", none, "u"⟩)) :=
  (c5_get_order_exactly_one { id := some [1], service := none, status := none }
      lockSt0.db ((DB.wfb_facts lockSt0.db (by decide)).toQuery)).2.1
    ⟨1, "s", "open", none, "u"⟩ (by decide)

/-- A concrete order with one dirty host carrying one variable, for the C1
witness. -/
def ord1w : Order :=
  { id := none, service := "sv", status := "st", closed := none,
    created_by := "cb",
    hosts := [{ name := "n1", address := "a1", vars := [("k1", "v1")], dirty := true }] }

/-- Witness for C1 at a concrete input: adding `ord1w` to `lockSt0` and
reading it back by its assigned id. -/
theorem c1_round_trip_witness :
    ∃ o' st', add_order [some ord1w] true lockSt0 = ((Except.ok (), [some o']), st') ∧
      o'.id = some lockSt0.db.nextOrderId ∧
      ∃ g, get_orders 0 0 true (byId lockSt0.db.nextOrderId) st'.db = [g] ∧
        g.service = ord1w.service ∧ g.status = ord1w.status ∧
        g.closed = ord1w.closed ∧ g.created_by = ord1w.created_by ∧
        g.hosts.map (fun h => h.name) = ord1w.hosts.map (fun h => h.name) ∧
        g.hosts.map (fun h => h.address) = ord1w.hosts.map (fun h => h.address) ∧
        g.hosts.map (fun h => h.vars) = ord1w.hosts.map (fun h => h.vars) :=
  c1_round_trip lockSt0 ord1w (by decide) (by decide) (by decide)

/-- C3: the row-grouping materialization is total over outer-join null
patterns.  (i) A result row whose host columns are null — an order with zero
hosts — materializes as an Order with an empty host collection, and the pass
simply continues with the remaining rows; no error.  (ii) A host row whose
variable columns are null — a host with zero variables — contributes a Host
with an empty variable mapping, the group boundary being decided purely by
the identifier (dis)equality in the hypotheses.  (iii) End to end, every
order returned by the recursive `get_orders` materializes with exactly the
hosts its host table holds (zero rows give the empty collection) and every
materialized host with exactly the variables its variable table holds (zero
rows give the empty mapping). -/
theorem c3_grouping_total (db : DB) (f : QueryFacts db) (off lim : Nat)
    (c : Criteria) (r : Row) (more : List Row) (hc : HostCols) (oid : Nat) :
    (r.order_id ≠ 0 → r.hostCols = none →
       groupOrders (r :: more) = orderFromRow r :: groupOrders more ∧
       (orderFromRow r).hosts = []) ∧
    (r.hostCols = some hc → hc.id ≠ 0 → r.order_id = oid → r.varCols = none →
       groupHosts oid (r :: more)
         = (hostFromCols hc :: (groupHosts oid more).1, (groupHosts oid more).2) ∧
       (hostFromCols hc).vars = []) ∧
    (∀ g ∈ get_orders off lim true c db,
       ∃ m ∈ db.orders, matchRow c m = true ∧ g = orderOf db m ∧
         g.hosts = (hostRowsFor db m.id).map (hostOf db) ∧
         (hostRowsFor db m.id = [] → g.hosts = []) ∧
         ∀ h' ∈ g.hosts, ∃ w ∈ hostRowsFor db m.id, h' = hostOf db w ∧
           (varRowsFor db w.id = [] → h'.vars = [])) := by
  refine ⟨?_, ?_, ?_⟩
  · intro h0 hn
    refine ⟨groupOrders_nohost r more h0 ?_, rfl⟩
    simp [hostIdTruthy, hn]
  · intro h1 h2 h3 h4
    exact ⟨groupHosts_novars oid r more hc h1 h2 h3 h4, rfl⟩
  · intro g hg
    rw [get_orders_rec_eq off lim c db f] at hg
    obtain ⟨m, hm, hgm⟩ := List.mem_map.mp hg
    have hm1 : m ∈ applyLimit lim ((db.orders.filter (matchRow c)).drop off) :=
      List.mem_reverse.mp hm
    have hm2 : m ∈ (db.orders.filter (matchRow c)).drop off :=
      (applyLimit_sublist _ _).subset hm1
    have hm3 : m ∈ db.orders.filter (matchRow c) :=
      (List.drop_sublist _ _).subset hm2
    have hmem := List.mem_filter.mp hm3
    subst hgm
    refine ⟨m, hmem.1, hmem.2, rfl, rfl, ?_, ?_⟩
    · intro hno
      simp [orderOf, hno]
    · intro h' hh'
      obtain ⟨w, hw, hwh⟩ := List.mem_map.mp hh'
      subst hwh
      refine ⟨w, hw, rfl, ?_⟩
      intro hv
      simp [hostOf, hv]

/-- Witness for C3 at a concrete input: a single result row with null host
columns (the order of `lockSt0` with zero hosts) materializes as an order
with an empty host collection. -/
theorem c3_grouping_total_witness :
    groupOrders [baseRow ⟨1, "s", "open", none, "u"⟩]
        = orderFromRow (baseRow ⟨1, "s", "open", none, "u"⟩) :: groupOrders [] ∧
    (orderFromRow (baseRow ⟨1, "s", "open", none, "u"⟩)).hosts = [] :=
  (c3_grouping_total lockSt0.db ((DB.wfb_facts lockSt0.db (by decide)).toQuery)
      0 0 { id := none, service := none, status := none }
      (baseRow ⟨1, "s", "open", none, "u"⟩) [] ⟨1, 1, "a", "n"⟩ 1).1
    (by decide) rfl

/-- Pagination as the spec's sentence describes it, written from the spec's
words for comparison with `get_orders` as embedded from the source: rank the
matching orders by descending id, then take exactly the ranks `[o, o+l)`. -/
def getOrdersRankedSpec (off lim : Nat) (c : Criteria) (db : DB) : List Order :=
  (applyLimit lim ((sortDescById (db.orders.filter (matchRow c))).drop off)).map
    (orderOf db)

/-- A two-order database with no hosts, separating table order from
descending-rank order. -/
def db2 : DB :=
  { orders := [⟨1, "s", "open", none, "u"⟩, ⟨2, "s", "open", none, "u"⟩],
    hosts := [], vars := [], nextOrderId := 3, nextHostId := 1, nextVarId := 1,
    now := 0 }

/-- C2 counterexample: on a two-order store, `get_orders(offset=0, limit=1)`
does not return the order at rank 0 by descending id.  The subselect that
offset and limit are applied to carries no ORDER BY, so the page is cut from
the matching ids in table (ascending-id) order: the call returns the order
with id 1, while the spec's descending ranking demands the order with
id 2. -/
theorem c2_counterexample :
    get_orders 0 1 true { id := none, service := none, status := none } db2
      ≠ getOrdersRankedSpec 0 1 { id := none, service := none, status := none } db2 := by
  rw [get_orders_rec_eq 0 1 { id := none, service := none, status := none } db2
    ((DB.wfb_facts db2 (by decide)).toQuery)]
  decide

/-- C2 (amended): pagination is indeed applied to a subselect of order
identifiers only, so host/variable fan-out never multiplies the page and the
call returns never more and never fewer orders than the slice holds — but
the subselect carries no ORDER BY, so `offset` and `limit` cut the matching
orders in table (ascending-id) order, not at descending rank; the slice is
then presented in descending id order.  The page size is exactly
`min(limit, K - offset)` matching orders (all of them past the offset when
`limit` is 0), where `K` counts the matching orders — independent of how
many hosts and variables each order has. -/
theorem c2_pagination (off lim : Nat) (c : Criteria) (db : DB)
    (f : QueryFacts db) :
    get_orders off lim true c db
      = ((applyLimit lim ((db.orders.filter (matchRow c)).drop off)).reverse).map
          (orderOf db) ∧
    (get_orders off lim true c db).length
      = (if lim = 0 then (db.orders.filter (matchRow c)).length - off
         else min lim ((db.orders.filter (matchRow c)).length - off)) := by
  have h := get_orders_rec_eq off lim c db f
  refine ⟨h, ?_⟩
  rw [h, List.length_map, List.length_reverse]
  unfold applyLimit
  by_cases h0 : lim = 0
  · simp [h0, List.length_drop]
  · have hb : (lim == 0) = false := by simpa using h0
    simp [hb, h0, List.length_take, List.length_drop]

/-- Witness for C2 at a concrete input: offset 0, limit 1 on the two-order
store `db2` with no criteria. -/
theorem c2_pagination_witness :
    get_orders 0 1 true { id := none, service := none, status := none } db2
      = ((applyLimit 1 ((db2.orders.filter (matchRow
            { id := none, service := none, status := none })).drop 0)).reverse).map
          (orderOf db2) ∧
    (get_orders 0 1 true { id := none, service := none, status := none } db2).length
      = (if (1 : Nat) = 0 then
           (db2.orders.filter (matchRow
             { id := none, service := none, status := none })).length - 0
         else min 1 ((db2.orders.filter (matchRow
             { id := none, service := none, status := none })).length - 0)) :=
  c2_pagination 0 1 { id := none, service := none, status := none } db2
    ((DB.wfb_facts db2 (by decide)).toQuery)

/-- The filter-field semantics the spec's sentence describes, written from
the spec's words for comparison with `fieldMatch` as embedded from the
source: a value list is the logical OR of its equalities — with no special
case, so an empty list matches nothing. -/
def fieldMatchSpec {α : Type} [BEq α] (crit : Option (List α)) (v : α) : Bool :=
  match crit with
  | none => true
  | some vs => vs.contains v

def matchRowSpec (c : Criteria) (r : OrderRow) : Bool :=
  fieldMatchSpec c.id r.id && fieldMatchSpec c.service r.service &&
    fieldMatchSpec c.status r.status

/-- C8 counterexample: a field passed an EMPTY value list does not behave as
"matches an order when it equals any value in the list" (which would match
nothing): SQLAlchemy's `or_` drops the `None` seed and an empty clause list
compiles to no WHERE text, so the code matches everything.  On the one-order
store, `get_orders(id=[])` returns the order although the spec's OR
semantics returns none. -/
theorem c8_counterexample :
    fieldMatch (some ([] : List Nat)) 1 = true ∧
    fieldMatchSpec (some ([] : List Nat)) 1 = false ∧
    get_orders 0 0 true { id := some [], service := none, status := none }
        lockSt0.db
      ≠ (lockSt0.db.orders.filter (matchRowSpec
          { id := some [], service := none, status := none })).map
          (orderOf lockSt0.db) := by
  refine ⟨rfl, rfl, ?_⟩
  rw [get_orders_rec_eq 0 0 { id := some [], service := none, status := none }
    lockSt0.db ((DB.wfb_facts lockSt0.db (by decide)).toQuery)]
  decide

/-- C8 (amended): the filter fields of `get_orders`/`get_order` combine as
the spec says — a non-empty value list is a logical OR over its values,
distinct fields combine conjunctively, and an absent (`None`) field imposes
no constraint — with one correction: a field passed an empty list also
imposes no constraint (the all-dropped OR clause vanishes) instead of
matching nothing.  The last conjunct ties the WHERE predicate to the result
set: an order is returned exactly when some stored row satisfies the
conjunction and materializes to it. -/
theorem c8_filter_semantics {α : Type} [BEq α] [LawfulBEq α] (c : Criteria)
    (r : OrderRow) (vs : List α) (v : α) (db : DB) (f : QueryFacts db) :
    (matchRow c r = true ↔
       fieldMatch c.id r.id = true ∧ fieldMatch c.service r.service = true ∧
       fieldMatch c.status r.status = true) ∧
    (vs ≠ [] → (fieldMatch (some vs) v = true ↔ v ∈ vs)) ∧
    fieldMatch (none : Option (List α)) v = true ∧
    fieldMatch (some ([] : List α)) v = true ∧
    (∀ g, g ∈ get_orders 0 0 true c db ↔
       ∃ m ∈ db.orders, matchRow c m = true ∧ g = orderOf db m) := by
  refine ⟨?_, ?_, rfl, rfl, ?_⟩
  · simp [matchRow, Bool.and_eq_true, and_assoc]
  · intro hne
    cases vs with
    | nil => exact absurd rfl hne
    | cons a t => simp [fieldMatch, List.contains, List.elem_iff]
  · intro g
    rw [get_orders_rec_eq 0 0 c db f]
    constructor
    · intro hg
      obtain ⟨m, hm, hgm⟩ := List.mem_map.mp hg
      have hm1 : m ∈ db.orders.filter (matchRow c) := by
        have h2 := List.mem_reverse.mp hm
        have h3 : m ∈ (db.orders.filter (matchRow c)).drop 0 :=
          (applyLimit_sublist _ _).subset h2
        simpa using h3
      have hmem := List.mem_filter.mp hm1
      exact ⟨m, hmem.1, hmem.2, hgm.symm⟩
    · rintro ⟨m, hm, hmr, rfl⟩
      refine List.mem_map.mpr ⟨m, ?_, rfl⟩
      refine List.mem_reverse.mpr ?_
      show m ∈ applyLimit 0 ((db.orders.filter (matchRow c)).drop 0)
      simpa [applyLimit] using List.mem_filter.mpr ⟨hm, hmr⟩

/-- Witness for C8 at a concrete input: criteria `id=[1,5]` against the
one-order store of `lockSt0`. -/
theorem c8_filter_semantics_witness :
    (matchRow { id := some [1, 5], service := none, status := none }
        ⟨1, "s", "open", none, "u"⟩ = true ↔
       fieldMatch (some [1, 5]) 1 = true ∧
       fieldMatch (none : Option (List String)) "s" = true ∧
       fieldMatch (none : Option (List String)) "open" = true) ∧
    ([1, 5] ≠ ([] : List Nat) → (fieldMatch (some [1, 5]) 1 = true ↔ 1 ∈ [1, 5])) ∧
    fieldMatch (none : Option (List Nat)) 1 = true ∧
    fieldMatch (some ([] : List Nat)) 1 = true ∧
    (∀ g, g ∈ get_orders 0 0 true
        { id := some [1, 5], service := none, status := none } lockSt0.db ↔
       ∃ m ∈ lockSt0.db.orders,
         matchRow { id := some [1, 5], service := none, status := none } m = true ∧
         g = orderOf lockSt0.db m) :=
  c8_filter_semantics { id := some [1, 5], service := none, status := none }
    ⟨1, "s", "open", none, "u"⟩ [1, 5] 1 lockSt0.db
    ((DB.wfb_facts lockSt0.db (by decide)).toQuery)

/-- `__add_order` on a non-recursive insert: full state equation. -/
theorem add_order_impl_false_eq (o : Order) (st : St) :
    add_order_impl (some o) false st
      = (Except.ok { o with id := some st.db.nextOrderId },
         { db := { st.db with
              orders := st.db.orders ++
                [⟨st.db.nextOrderId, o.service, o.status, o.closed, o.created_by⟩],
              nextOrderId := st.db.nextOrderId + 1 },
           lockDepth := st.lockDepth,
           lockAcqs := st.lockAcqs + 1 }) := by
  unfold add_order_impl synchronized
  simp only [Bool.not_false, if_true, Prod.mk.injEq, St.mk.injEq, DB.mk.injEq,
    Except.ok.injEq, Order.mk.injEq, and_true, true_and]
  omega

/-- The database produced by the host loop of `__add_order`, computed
directly from the starting database. -/
def addHostsDB (oid : Nat) : List Host → DB → DB
  | [], d => d
  | h :: t, d =>
    if h.dirty then
      addHostsDB oid t { d with
        hosts := d.hosts ++ [⟨d.nextHostId, oid, h.address, h.name⟩],
        nextHostId := d.nextHostId + 1,
        vars := d.vars ++ numberVars d.nextHostId d.nextVarId h.vars,
        nextVarId := d.nextVarId + h.vars.length }
    else addHostsDB oid t d

theorem addHostsFold_db_eq (oid : Nat) (hs : List Host) (acc : List Host) (st : St) :
    ((hs.foldl (addHostStep oid) (acc, st)).2).db = addHostsDB oid hs st.db := by
  induction hs generalizing acc st with
  | nil => rfl
  | cons h t ih =>
    rw [List.foldl_cons]
    have hstep : addHostStep oid (acc, st) h
        = (acc ++ [(add_host_impl oid h st).1.1], (add_host_impl oid h st).2) := rfl
    rw [hstep, ih]
    cases hd : h.dirty
    · rw [add_host_impl_clean_eq _ _ _ hd]
      simp [addHostsDB, hd]
    · rw [add_host_impl_dirty_eq _ _ _ hd]
      simp [addHostsDB, hd]

/-- The database after a recursive `__add_order`, via `addHostsDB`. -/
theorem add_order_impl_true_db (o : Order) (st : St) :
    ((add_order_impl (some o) true st).2).db
      = addHostsDB st.db.nextOrderId o.hosts
          { st.db with
            orders := st.db.orders ++
              [⟨st.db.nextOrderId, o.service, o.status, o.closed, o.created_by⟩],
            nextOrderId := st.db.nextOrderId + 1 } := by
  unfold add_order_impl synchronized
  simp only [Bool.not_true, Bool.false_eq_true, if_false]
  rw [addHostsFold_db_eq]

/-- `__add_order` reads nothing but the database: two starting states with
the same database produce the same returned order and the same final
database. -/
theorem add_order_impl_db (o : Option Order) (rec : Bool) (st1 st2 : St)
    (hdb : st1.db = st2.db) :
    (add_order_impl o rec st1).1 = (add_order_impl o rec st2).1 ∧
    ((add_order_impl o rec st1).2).db = ((add_order_impl o rec st2).2).db := by
  cases o with
  | none => exact ⟨rfl, hdb⟩
  | some order =>
    cases rec with
    | false =>
      rw [add_order_impl_false_eq, add_order_impl_false_eq, hdb]
      exact ⟨rfl, rfl⟩
    | true =>
      constructor
      · rw [(add_order_impl_true_shape order st1).1,
          (add_order_impl_true_shape order st2).1, hdb]
      · rw [add_order_impl_true_db, add_order_impl_true_db, hdb]

/-- `__add_order` never raises on a non-`None` order. -/
theorem add_order_impl_some_isOk (o : Order) (rec : Bool) (st : St) :
    ∃ o', (add_order_impl (some o) rec st).1 = Except.ok o' := by
  cases rec
  · exact ⟨_, congrArg Prod.fst (add_order_impl_false_eq o st)⟩
  · exact ⟨_, (add_order_impl_true_shape o st).1⟩

/-- When the id lookup of `__save_order` comes back empty, the call falls
back to the insert path: it returns what `__add_order` returns and leaves
the database `__add_order` leaves. -/
theorem save_order_impl_fallback (order : Order) (rec : Bool) (st : St)
    (h : (match order.id with
          | none => Except.ok none
          | some i =>
            if i == 0 then Except.ok none
            else get_order { id := some [i], service := none, status := none } st.db)
        = Except.ok (none : Option Order)) :
    (save_order_impl (some order) rec st).1 = (add_order_impl (some order) rec st).1 ∧
    ((save_order_impl (some order) rec st).2).db
      = ((add_order_impl (some order) rec st).2).db := by
  have hdbeq := add_order_impl_db (some order) rec
    { st with lockDepth := st.lockDepth + 1, lockAcqs := st.lockAcqs + 1 } st rfl
  obtain ⟨o', ho'⟩ := add_order_impl_some_isOk order rec
    { st with lockDepth := st.lockDepth + 1, lockAcqs := st.lockAcqs + 1 }
  have hA : add_order_impl (some order) rec
      { st with lockDepth := st.lockDepth + 1, lockAcqs := st.lockAcqs + 1 }
      = (Except.ok o',
         (add_order_impl (some order) rec
           { st with lockDepth := st.lockDepth + 1, lockAcqs := st.lockAcqs + 1 }).2) := by
    rw [← ho']
  have hsave : save_order_impl (some order) rec st
      = (Except.ok o',
         { (add_order_impl (some order) rec
             { st with lockDepth := st.lockDepth + 1, lockAcqs := st.lockAcqs + 1 }).2
           with
           lockDepth := ((add_order_impl (some order) rec
             { st with lockDepth := st.lockDepth + 1,
                       lockAcqs := st.lockAcqs + 1 }).2).lockDepth - 1 }) := by
    unfold save_order_impl synchronized
    simp only [h]
    rw [hA]
  constructor
  · rw [hsave, ← hdbeq.1, ho']
  · rw [hsave]
    exact hdbeq.2

/-- `__save_order` on a found id, non-recursive: update exactly the mutable
fields of the matching order row, touch nothing else. -/
theorem save_order_impl_found_false_eq (order : Order) (st : St) (i : Nat)
    (w : Order) (hid : order.id = some i) (hi : (i == 0) = false)
    (hfound : get_order { id := some [i], service := none, status := none } st.db
      = Except.ok (some w)) :
    save_order_impl (some order) false st
      = (Except.ok order,
         { st with
           db := { st.db with orders := st.db.orders.map (fun r =>
             if r.id == i then
               { r with service := order.service, status := order.status,
                        closed := order.closed, created_by := order.created_by }
             else r) },
           lockAcqs := st.lockAcqs + 1 }) := by
  unfold save_order_impl synchronized
  simp only [hid, hi, Bool.false_eq_true, if_false, hfound, Option.getD_some,
    Bool.not_false, if_true, Prod.mk.injEq, St.mk.injEq, DB.mk.injEq,
    and_true, true_and]
  omega

/-- `__save_order` on a found id, recursive: update the order row, then run
the host loop — `__save_host` on each in-memory host, i.e. the per-host
upsert — threading the state. -/
theorem save_order_impl_found_true_eq (order : Order) (st : St) (i : Nat)
    (w : Order) (hid : order.id = some i) (hi : (i == 0) = false)
    (hfound : get_order { id := some [i], service := none, status := none } st.db
      = Except.ok (some w)) :
    save_order_impl (some order) true st
      = (Except.ok { order with
           hosts := (order.hosts.foldl (saveHostStep i)
             ([], { st with
                 db := { st.db with orders := st.db.orders.map (fun r =>
                   if r.id == i then
                     { r with service := order.service, status := order.status,
                              closed := order.closed, created_by := order.created_by }
                   else r) },
                 lockDepth := st.lockDepth + 1,
                 lockAcqs := st.lockAcqs + 1 })).1 },
         { (order.hosts.foldl (saveHostStep i)
             ([], { st with
                 db := { st.db with orders := st.db.orders.map (fun r =>
                   if r.id == i then
                     { r with service := order.service, status := order.status,
                              closed := order.closed, created_by := order.created_by }
                   else r) },
                 lockDepth := st.lockDepth + 1,
                 lockAcqs := st.lockAcqs + 1 })).2 with
           lockDepth := ((order.hosts.foldl (saveHostStep i)
             ([], { st with
                 db := { st.db with orders := st.db.orders.map (fun r =>
                   if r.id == i then
                     { r with service := order.service, status := order.status,
                              closed := order.closed, created_by := order.created_by }
                   else r) },
                 lockDepth := st.lockDepth + 1,
                 lockAcqs := st.lockAcqs + 1 })).2).lockDepth - 1 }) := by
  unfold save_order_impl synchronized
  simp only [hid, hi, Bool.false_eq_true, if_false, hfound, Option.getD_some,
    Bool.not_true]

/-- C7: `save_order` is an upsert.  (A) An order carrying no id (or the falsy
id 0) falls back to the insert path: the call returns what `__add_order`
returns and leaves the database `__add_order` leaves.  (B) An order whose id
is not found in storage falls back the same way.  (C) An order whose id is
found has exactly the mutable fields `service`, `status`, `closed` and
`created_by` of its row updated; non-recursively nothing else is touched,
and (C') recursively the host loop then runs `__save_host` on each in-memory
host.  (D) `__save_host` upserts by the `(order_id, address)` natural key —
a no-op unless the host is dirty, an insert when the key is absent, an
update of the matching rows when present — and (E) `__save_variable` upserts
by the `(host_id, name)` natural key. -/
theorem c7_save_order_upsert (order : Order) (rec : Bool) (st : St)
    (oid : Nat) (h : Host) (hid : Nat) (k : String) (v : Value) :
    (order.id = none ∨ order.id = some 0 →
       (save_order_impl (some order) rec st).1
         = (add_order_impl (some order) rec st).1 ∧
       ((save_order_impl (some order) rec st).2).db
         = ((add_order_impl (some order) rec st).2).db) ∧
    (∀ i, order.id = some i → i ≠ 0 →
       get_order { id := some [i], service := none, status := none } st.db
         = Except.ok none →
       (save_order_impl (some order) rec st).1
         = (add_order_impl (some order) rec st).1 ∧
       ((save_order_impl (some order) rec st).2).db
         = ((add_order_impl (some order) rec st).2).db) ∧
    (∀ i w, order.id = some i → i ≠ 0 →
       get_order { id := some [i], service := none, status := none } st.db
         = Except.ok (some w) →
       save_order_impl (some order) false st
         = (Except.ok order,
            { st with
              db := { st.db with orders := st.db.orders.map (fun r =>
                if r.id == i then
                  { r with service := order.service, status := order.status,
                           closed := order.closed, created_by := order.created_by }
                else r) },
              lockAcqs := st.lockAcqs + 1 })) ∧
    (∀ i w, order.id = some i → i ≠ 0 →
       get_order { id := some [i], service := none, status := none } st.db
         = Except.ok (some w) →
       (save_order_impl (some order) true st).1
         = Except.ok { order with
             hosts := (order.hosts.foldl (saveHostStep i)
               ([], { st with
                   db := { st.db with orders := st.db.orders.map (fun r =>
                     if r.id == i then
                       { r with service := order.service, status := order.status,
                                closed := order.closed, created_by := order.created_by }
                     else r) },
                   lockDepth := st.lockDepth + 1,
                   lockAcqs := st.lockAcqs + 1 })).1 }) ∧
    (h.dirty = false →
       save_host_impl oid h st = ((h, none), { st with lockAcqs := st.lockAcqs + 1 })) ∧
    (h.dirty = true →
       st.db.hosts.find? (fun x => x.order_id == oid && x.address == h.address) = none →
       (save_host_impl oid h st).1 = ({ h with dirty := false }, some st.db.nextHostId) ∧
       ((save_host_impl oid h st).2).db.hosts
         = st.db.hosts ++ [⟨st.db.nextHostId, oid, h.address, h.name⟩]) ∧
    (∀ wr, h.dirty = true →
       st.db.hosts.find? (fun x => x.order_id == oid && x.address == h.address)
         = some wr →
       (save_host_impl oid h st).1 = ({ h with dirty := false }, some wr.id) ∧
       ((save_host_impl oid h st).2).db.hosts
         = st.db.hosts.map (fun x =>
             if x.order_id == oid && x.address == h.address then
               { x with name := h.name }
             else x)) ∧
    (st.db.vars.find? (fun x => x.host_id == hid && x.name == k) = none →
       ((save_variable_impl hid k v st).2).db.vars
         = st.db.vars ++ [⟨st.db.nextVarId, hid, k, v⟩]) ∧
    (∀ wv, st.db.vars.find? (fun x => x.host_id == hid && x.name == k) = some wv →
       ((save_variable_impl hid k v st).2).db.vars
         = st.db.vars.map (fun x =>
             if x.host_id == hid && x.name == k then { x with value := v } else x)) := by
  refine ⟨?_, ?_, ?_, ?_, ?_, ?_, ?_, ?_, ?_⟩
  · intro hfalsy
    have hlk : (match order.id with
        | none => Except.ok none
        | some i =>
          if i == 0 then Except.ok none
          else get_order { id := some [i], service := none, status := none } st.db)
        = Except.ok (none : Option Order) := by
      rcases hfalsy with h1 | h1 <;> simp [h1]
    exact save_order_impl_fallback order rec st hlk
  · intro i hi hne hnf
    have hib : (i == 0) = false := by simpa using hne
    have hlk : (match order.id with
        | none => Except.ok none
        | some i =>
          if i == 0 then Except.ok none
          else get_order { id := some [i], service := none, status := none } st.db)
        = Except.ok (none : Option Order) := by
      rw [hi]
      simp [hib, hnf]
    exact save_order_impl_fallback order rec st hlk
  · intro i w hi hne hf
    exact save_order_impl_found_false_eq order st i w hi (by simpa using hne) hf
  · intro i w hi hne hf
    rw [save_order_impl_found_true_eq order st i w hi (by simpa using hne) hf]
  · intro hd
    exact save_host_impl_clean_eq oid h st hd
  · intro hd habs
    exact ⟨(save_host_impl_insert oid h st hd habs).1,
      (save_host_impl_insert oid h st hd habs).2.1⟩
  · intro wr hd hfind
    exact ⟨(save_host_impl_update oid h st hd wr hfind).1,
      (save_host_impl_update oid h st hd wr hfind).2.1⟩
  · intro habs
    rw [save_variable_impl_insert_eq hid k v st habs]
  · intro wv hfind
    rw [save_variable_impl_update_eq hid k v st wv hfind]

/-- Witness for C7 at concrete inputs: on `lockSt0`, saving the id-less
`ord10` behaves as the insert path, and saving a fresh variable appends its
row. -/
theorem c7_save_order_upsert_witness :
    ((save_order_impl (some ord10) true lockSt0).1
       = (add_order_impl (some ord10) true lockSt0).1 ∧
     ((save_order_impl (some ord10) true lockSt0).2).db
       = ((add_order_impl (some ord10) true lockSt0).2).db) ∧
    ((save_variable_impl 1 "k" "v" lockSt0).2).db.vars
      = lockSt0.db.vars ++ [⟨lockSt0.db.nextVarId, 1, "k", "v"⟩] :=
  ⟨(c7_save_order_upsert ord10 true lockSt0 1 hostClean 1 "k" "v").1 (Or.inl rfl),
   (c7_save_order_upsert ord10 true lockSt0 1 hostClean 1 "k" "v").2.2.2.2.2.2.2.1 rfl⟩

end Exscriptd
